import Mathlib

/-!
# A verification development for the `cascade` declarative scheduler

This file gives a shallow embedding, in Lean 4, of the parts of the
`cascade` code base (a Python project) that its specification talks about:

* the validating first-pass AST (`src/cascade/compiler/ast.py`):
  tasks (steps and goals), dependency inversion, goal flattening, implicit
  dependency injection, reference / deadline / cycle checking, topological
  sorting and property propagation;
* the second-pass AST (`src/cascade/compiler/processed_ast.py`):
  atomic tasks, background block merging;
* the staged CP model construction (`src/cascade/optimizer/models.py`):
  window snapping, deadline indicator constraints, and the lexicographic
  objective-floor pipeline.

Modelling conventions:

* Python `datetime` values are modelled as a wall-clock instant in
  microseconds together with an optional fixed UTC offset (`none` = naive).
  Comparing a naive and an aware datetime raises `TypeError` in Python;
  the embedded comparison returns `none` in that case and the failure is
  propagated as `Option`.
* Python `set[str]` is modelled as `List String` with membership-based
  operations (duplicate-free insertion).  Iteration order of a Python set
  is unspecified; the embedding fixes a concrete order.  All facts proved
  below are insensitive to that order (unions, minima and products are
  commutative), matching the nondeterminism of the source.
* Python `dict` is modelled as an association list where insertion of an
  existing key overwrites in place (CPython semantics: position kept).
* Mutating methods are modelled as functions returning the new value; for
  the frame/aliasing claim an explicit object-heap embedding is used, in
  which `deepcopy` allocates fresh object indices.
* Python `//` on integers/timedeltas is floor division; all divisors used
  by the source (`DURATION_UNIT`, one day) are positive, where floor
  division and Euclidean division agree, so it is embedded as `Int.ediv`.
-/

set_option linter.unusedVariables false

namespace Cascade

/-! ## Time values

`DURATION_UNIT = timedelta(minutes=5)` from `src/cascade/compiler/__init__.py`,
expressed in microseconds (the resolution of Python `timedelta`). -/

/-- Microseconds in one slot: `DURATION_UNIT = timedelta(minutes = 5)`. -/
def DURATION_UNIT : Int := 300000000

/-- Microseconds in one day (used by `datetime.replace(hour=0, ...)`). -/
def MICROS_PER_DAY : Int := 86400000000

/-- A Python `datetime`: wall-clock microseconds plus an optional fixed UTC
offset in microseconds (`none` models a naive datetime). -/
structure DateTime where
  wall : Int
  tz : Option Int
deriving DecidableEq, Repr

/-- The comparable value of a datetime: aware datetimes compare by absolute
instant (wall clock minus offset), naive ones by wall clock. -/
def DateTime.absVal (d : DateTime) : Int :=
  d.wall - d.tz.getD 0

/-- Python `x > y` on datetimes: comparing a naive with an aware datetime
raises `TypeError`, modelled by `none`. -/
def dtGt (x y : DateTime) : Option Bool :=
  match x.tz, y.tz with
  | none, none => some (decide (x.wall > y.wall))
  | some _, some _ => some (decide (x.absVal > y.absVal))
  | _, _ => none

/-- `datetime.replace(tzinfo = tz)`: keeps the wall clock, swaps the offset. -/
def DateTime.replaceTz (d : DateTime) (tz : Int) : DateTime :=
  { d with tz := some tz }

/-! ## Window snapping (`BasicModel.from_processed_ast`, models.py lines 199-214)

The schedule start is brought to the next 5-minute mark measured from the
start of its (local) day:

    start_of_day = schedule_start.replace(hour=0, minute=0, second=0, microsecond=0)
    schedule_start = start_of_day
        + ((schedule_start - start_of_day) + (DURATION_UNIT - 1 microsecond))
          // DURATION_UNIT * DURATION_UNIT

and construction aborts when `get_total_slots(schedule_start, schedule_end) < 0`.
Datetimes here are wall-clock microseconds (the subtraction of two datetimes
in the same fixed-offset zone is their wall-clock difference). -/

/-- `schedule_start.replace(hour=0, minute=0, second=0, microsecond=0)`:
midnight of the same day. -/
def startOfDay (t : Int) : Int := MICROS_PER_DAY * (t / MICROS_PER_DAY)

/-- The snapped schedule start computed by `BasicModel.from_processed_ast`. -/
def snapStart (t : Int) : Int :=
  startOfDay t +
    (((t - startOfDay t) + (DURATION_UNIT - 1)) / DURATION_UNIT) * DURATION_UNIT

/-- `datetime_to_slot(dt, schedule_start) = (dt - schedule_start) // DURATION_UNIT`
(models.py line 31). -/
def datetimeToSlot (dt scheduleStart : Int) : Int :=
  (dt - scheduleStart) / DURATION_UNIT

/-- `get_total_slots` (models.py line 35). -/
def getTotalSlots (scheduleStart scheduleEnd : Int) : Int :=
  datetimeToSlot scheduleEnd scheduleStart

/-- The guard of the `RuntimeError` raised by `BasicModel.from_processed_ast`
(models.py lines 211-214): the window error fires iff
`get_total_slots(snapped_start, schedule_end) < 0`. -/
def windowErrorRaised (scheduleStart scheduleEnd : Int) : Bool :=
  decide (getTotalSlots (snapStart scheduleStart) scheduleEnd < 0)

/-! ## The deadline indicator constraints (`TotalUtilityModel.from_basic_model`)

For a modeled task with deadline slot `k`, models.py lines 336-385 pose, on
top of the `BasicModel` interval variables (lines 222-246):

* variable domains `start, end ∈ [0, T]`, `len ∈ [0, 2·dur]`,
  `avail ∈ [0, T]`, and the interval identity `end = start + len`;
* `add_exactly_one([before_ddl, clipped, after_ddl])`;
* half-reified constraints (`only_enforce_if`, one direction only):
  `before → end ≤ k`, `after → k < start`, `clipped → start ≤ k ∧ k < end`,
  `before → avail = len`, `clipped → avail = k - start`, `after → avail = 0`.
-/

/-- The value of a boolean CP-SAT literal inside a linear constraint. -/
def b2i (b : Bool) : Int := if b then 1 else 0

/-- One task's slice of a CP-SAT assignment relevant to the deadline logic. -/
structure DdlAssign where
  start : Int
  endv : Int
  len : Int
  avail : Int
  beforeDdl : Bool
  clipped : Bool
  afterDdl : Bool
deriving DecidableEq, Repr

/-- The constraints posed by `BasicModel.from_processed_ast` (variable domains,
interval identity) and `TotalUtilityModel.from_basic_model` (deadline block)
for one task with converted deadline `k`, window size `T` and duration `dur`. -/
def DdlConstraints (T k dur : Int) (a : DdlAssign) : Prop :=
  (0 ≤ a.start ∧ a.start ≤ T) ∧
  (0 ≤ a.endv ∧ a.endv ≤ T) ∧
  (0 ≤ a.len ∧ a.len ≤ 2 * dur) ∧
  a.endv = a.start + a.len ∧
  (0 ≤ a.avail ∧ a.avail ≤ T) ∧
  b2i a.beforeDdl + b2i a.clipped + b2i a.afterDdl = 1 ∧
  (a.beforeDdl = true → a.endv ≤ k) ∧
  (a.afterDdl = true → k < a.start) ∧
  (a.clipped = true → a.start ≤ k) ∧
  (a.clipped = true → k < a.endv) ∧
  (a.beforeDdl = true → a.avail = a.len) ∧
  (a.clipped = true → a.avail = k - a.start) ∧
  (a.afterDdl = true → a.avail = 0)

instance (T k dur : Int) (a : DdlAssign) : Decidable (DdlConstraints T k dur a) := by
  unfold DdlConstraints; infer_instance

/-! ## The staged objective-floor pipeline (models.py lines 316-324, 451-493)

The CP-SAT solver is external; a stage's solve result enters the embedding as
the integer parameter `optimal` (the code's `int(sol.objective_value)`, the
floor of the reported objective).  A `CpModel` is modelled by the data the
claims are about: the list of posed constraints (as predicates on an
assignment of the per-task `U_i` / `CUF_i` / `len_i` values) and the current
objective.  `add_hints` only installs warm-start hints on the solver proto
and poses no constraint, so it has no counterpart in the assignment
semantics. -/

/-- The per-task values of a CP-SAT assignment that the staged pipeline
constrains: `utility.y`, `cuf`, and `interval.size_expr()` per task id. -/
structure StageAssign where
  util : String → Int
  cuf : String → Int
  len : String → Int

/-- `sum(utility.y for utility in self.utilities.values())`. -/
def sumUtil (ids : List String) (σ : StageAssign) : Int :=
  (ids.map σ.util).sum

/-- `sum(self.cuf.values())`. -/
def sumCuf (ids : List String) (σ : StageAssign) : Int :=
  (ids.map σ.cuf).sum

/-- `sum(interval.size_expr() for interval in self.intervals.values())`. -/
def sumLen (ids : List String) (σ : StageAssign) : Int :=
  (ids.map σ.len).sum

/-- The objective registered on the model (`model.maximize` / `model.minimize`). -/
inductive StageObjective
  | maximizeUtil
  | maximizeCuf
  | minimizeLen
deriving DecidableEq, Repr

/-- The modelled slice of a `cp_model.CpModel` as the staged pipeline sees it:
the modeled task ids, the constraint list, and the current objective. -/
structure StagedModel where
  ids : List String
  constraints : List (StageAssign → Prop)
  objective : Option StageObjective

/-- An assignment is feasible for a model iff it satisfies every posed
constraint. -/
def Feasible (m : StagedModel) (σ : StageAssign) : Prop :=
  ∀ c ∈ m.constraints, c σ

/-- `TotalUtilityModel.set_objective_constraint` (models.py lines 319-324):
solve, clear the objective, reinstall hints, and add
`sum(utility.y) >= optimal` to the same model. -/
def tuSetObjectiveConstraint (m : StagedModel) (optimal : Int) : StagedModel :=
  { m with
    objective := none
    constraints := m.constraints ++ [fun σ => optimal ≤ sumUtil m.ids σ] }

/-- `CUFModel.from_total_utility_model` (models.py lines 462-468): freeze the
utility objective at its floor, then `maximize(sum(self.cuf.values()))`. -/
def cufFromTotalUtilityModel (m : StagedModel) (optimal : Int) : StagedModel :=
  { tuSetObjectiveConstraint m optimal with
    objective := some .maximizeCuf }

/-- `CUFModel.set_objective_constraint` (models.py lines 470-475): clear the
objective, reinstall hints, add `sum(self.cuf.values()) >= optimal`. -/
def cufSetObjectiveConstraint (m : StagedModel) (optimal : Int) : StagedModel :=
  { m with
    objective := none
    constraints := m.constraints ++ [fun σ => optimal ≤ sumCuf m.ids σ] }

/-- `IntervalLenModel.from_cuf_model` (models.py lines 484-493): freeze the CUF
objective at its floor, then minimize the total interval length. -/
def intervalLenFromCufModel (m : StagedModel) (optimal : Int) : StagedModel :=
  { cufSetObjectiveConstraint m optimal with
    objective := some .minimizeLen }


/-! ## The task AST (`src/cascade/compiler/ast.py`)

The data model: `Step` and `Goal` share the `BaseTask` fields; the embedding
uses one `Task` record with a `kind` field (the source discriminates on the
presence of `subtasks`).  `deadline` is an `Option DateTime` (Pydantic's
`NaiveDatetime` admits only naive values at construction; propagation later
makes deadlines aware).  `timezone` is an optional fixed UTC offset.
Durations are microseconds.  `bg` (background obligations) does not interact
with any task pass; its block materialization is embedded separately below.

Python sets of ids are embedded as duplicate-free `List String`; Python dicts
as association lists whose insertion keeps the position of an existing key. -/

inductive Status
  | todo
  | done
deriving DecidableEq, Repr

structure Dependencies where
  before : List String
  after : List String
deriving DecidableEq, Repr

inductive TaskKind
  | step (status : Status) (duration : Int) (confidence : Int)
  | goal (subtasks : List String) (implicitDepsByOrder : Bool)
deriving DecidableEq, Repr

structure Task where
  name : String
  id : String
  deadline : Option DateTime
  timezone : Option Int
  priority : Int
  kind : TaskKind
  deps : Dependencies
deriving DecidableEq, Repr

instance : Inhabited Task :=
  ⟨⟨"", "", none, none, 1, .step .todo 0 1, ⟨[], []⟩⟩⟩

def Task.isStep (t : Task) : Bool :=
  match t.kind with
  | .step _ _ _ => true
  | .goal _ _ => false

def Task.isGoal (t : Task) : Bool := !t.isStep

/-- `Goal.subtasks` (empty for a step). -/
def Task.subtasksOf (t : Task) : List String :=
  match t.kind with
  | .goal subs _ => subs
  | .step _ _ _ => []

/-- `Goal.implicit_deps_by_order` (`false` for a step). -/
def Task.implicitOrder (t : Task) : Bool :=
  match t.kind with
  | .goal _ b => b
  | .step _ _ _ => false

/-- `set.add`. -/
def setAdd (s : List String) (x : String) : List String :=
  if x ∈ s then s else s ++ [x]

/-- `set.update`. -/
def setUnion (s : List String) (xs : List String) : List String :=
  xs.foldl setAdd s

/-- `set.remove` (on a set known to contain the element). -/
def setRemove (s : List String) (x : String) : List String :=
  s.filter (fun y => y ≠ x)

/-- `set - set`. -/
def setDiff (s : List String) (xs : List String) : List String :=
  s.filter (fun y => y ∉ xs)

/-- `dict[k] = v`: overwrite in place, else append (CPython keeps the
insertion position of an existing key). -/
def upsert {α : Type} (d : List (String × α)) (k : String) (v : α) :
    List (String × α) :=
  if d.any (fun kv => kv.1 = k) then
    d.map (fun kv => if kv.1 = k then (k, v) else kv)
  else d ++ [(k, v)]

/-- `dict[k]` as an `Option`. -/
def alookup {α : Type} (d : List (String × α)) (k : String) : Option α :=
  (d.find? (fun kv => kv.1 = k)).map Prod.snd

structure CascadeConfig where
  defaultTz : Int
  log : Bool
  solverTimeout : Int
deriving DecidableEq, Repr

structure TaskAST where
  config : CascadeConfig
  tasks : List Task
deriving DecidableEq, Repr

/-- `TaskAST.get_tasks_in_dict`: `dict((x.id, x) for x in self.get_tasks())` —
a duplicated id is mapped to the entry inserted last. -/
def getTasksInDict (ts : List Task) : List (String × Task) :=
  ts.foldl (fun d t => upsert d t.id t) []

/-- `TaskAST.get_ids` (as a list; only membership is ever used). -/
def getIds (ts : List Task) : List String :=
  ts.map Task.id

/-- Mutating the object `tasks_dict[tid]` in a task list: the *last* task
with that id is the dict entry, so it is the one updated.  (An undefined id
would raise `KeyError` in Python; all call sites run after `check_refs`,
which excludes that, and the embedding leaves the list unchanged there.) -/
def modifyLast (tid : String) (f : Task → Task) : List Task → List Task
  | [] => []
  | t :: ts =>
    if ts.any (fun x => x.id = tid) then t :: modifyLast tid f ts
    else if t.id = tid then f t :: ts
    else t :: ts

/-- Update the element at a list index (the identity out of range). -/
def listModifyIdx {α : Type} (f : α → α) : Nat → List α → List α
  | _, [] => []
  | 0, x :: xs => f x :: xs
  | n + 1, x :: xs => x :: listModifyIdx f n xs

def clearBefore (t : Task) : Task :=
  { t with deps := { t.deps with before := [] } }

def addAfter (v : String) (t : Task) : Task :=
  { t with deps := { t.deps with after := setAdd t.deps.after v } }

/-- One iteration of `TaskAST._invert_dependencies` for the task at index `i`:
`for t in task.deps.before: tasks[t].deps.after.add(task.id)`, then
`task.deps.before.clear()`. -/
def invertGo (ts : List Task) (fuel i : Nat) : List Task :=
  match fuel with
  | 0 => ts
  | fuel + 1 =>
    match ts.get? i with
    | none => ts
    | some t =>
      let ts1 := t.deps.before.foldl
        (fun acc tgt => modifyLast tgt (addAfter t.id) acc) ts
      invertGo (listModifyIdx clearBefore i ts1) fuel (i + 1)

/-- `TaskAST._invert_dependencies` (ast.py lines 373-379).  The loop visits
the list in order; additions only ever touch `after` sets and the cleared
`before` set is the visited task's own, so visiting by index is faithful. -/
def invertDependencies (ts : List Task) : List Task :=
  invertGo ts ts.length 0

/-- `TaskAST._convert_goal_to_deps` (ast.py lines 381-385): every goal gains
its subtasks in `deps.after`. -/
def convertGoalToDeps (ts : List Task) : List Task :=
  ts.map (fun t =>
    if t.isGoal then
      { t with deps :=
          { t.deps with after := setUnion t.deps.after t.subtasksOf } }
    else t)

/-- The ids a task mentions: `deps.before ∪ deps.after` plus, for a goal, its
`subtasks` (`BaseTask.check_refs` and the `Goal` override). -/
def Task.refsOf (t : Task) : List String :=
  t.deps.before ++ t.deps.after ++ t.subtasksOf

/-- `TaskAST.check_refs` (ast.py lines 425-431): the union over all tasks of
the references that are not defined ids; construction fails iff nonempty. -/
def undefinedRefsOf (ast : TaskAST) : List String :=
  ast.tasks.foldl
    (fun acc t =>
      setUnion acc (t.refsOf.filter (fun r => !(decide (r ∈ getIds ast.tasks)))))
    []

/-! ### Deadline checking (ast.py lines 134-152 and 445-456)

`TaskAST.check_deadlines` works on a deep copy with `before` inverted and
goal subtasks merged into `after`, but resolves the referenced tasks through
the *original* AST's dict (`task.check_deadlines(self)`); deadlines agree
between the two since inversion and conversion never touch them.  A `none`
result models a crash (`KeyError` on an undefined id, or `TypeError` on a
naive/aware comparison). -/

/-- One iteration of the `BaseTask.check_deadlines` loop: resolve `dep` in
the dict (`KeyError` = `none`), skip it if it has no deadline, compare
otherwise (`TypeError` = `none`), collecting it if strictly later. -/
def conflictStep (origDict : List (String × Task)) (dl : DateTime)
    (acc : List String) (dep : String) : Option (List String) :=
  match alookup origDict dep with
  | none => none
  | some td =>
    match td.deadline with
    | none => some acc
    | some dl2 =>
      match dtGt dl2 dl with
      | none => none
      | some b => some (if b then acc ++ [dep] else acc)

/-- `BaseTask.check_deadlines`: the set of ids in `deps.after` whose deadline
is strictly later than the task's own (`[]` when the task has no deadline). -/
def taskConflicts (origDict : List (String × Task)) (t : Task) :
    Option (List String) :=
  match t.deadline with
  | none => some []
  | some dl => t.deps.after.foldlM (conflictStep origDict dl) []

/-- The loop of `TaskAST.check_deadlines`: the first task (in list order)
with a nonempty conflict set raises, reporting its name and the offending
ids. -/
def checkDdlGo (origDict : List (String × Task)) :
    List Task → Option (Option (String × List String))
  | [] => some none
  | t :: rest =>
    match taskConflicts origDict t with
    | none => none
    | some [] => checkDdlGo origDict rest
    | some c => some (some (t.name, c))

/-- The task list `check_deadlines` and `check_deps_graph` iterate over:
the working copy with `before` inverted and goal subtasks merged. -/
def transformedTasks (ast : TaskAST) : List Task :=
  convertGoalToDeps (invertDependencies ast.tasks)

/-- `TaskAST.check_deadlines` (ast.py lines 445-456). -/
def checkDeadlinesRun (ast : TaskAST) : Option (Option (String × List String)) :=
  checkDdlGo (getTasksInDict ast.tasks) (transformedTasks ast)

/-! ### Implicit dependency injection (ast.py lines 246-254) -/

/-- `Goal.inject_implicit_deps`: subtask `i` (for `i ≥ 1`) gains
`after ∪= subtasks[:i]`; a no-op unless `implicit_deps_by_order`. -/
def injectGoalDeps (g : Task) (ts : List Task) : List Task :=
  if g.implicitOrder then
    (List.range g.subtasksOf.length).foldl
      (fun acc i =>
        if i = 0 then acc
        else
          modifyLast (g.subtasksOf.getD i "")
            (fun x =>
              { x with deps :=
                  { x.deps with
                    after := setUnion x.deps.after (g.subtasksOf.take i) } })
            acc)
      ts
  else ts

/-- The injection loop in `TaskAST.check` (ast.py lines 417-418): applied to
every goal, in list order, mutating the AST itself (the injected edges are
preserved in the constructed AST).  The goals iterated are the original goal
objects; injection touches only `deps.after`, never `subtasks`, so the
snapshot is faithful. -/
def injectImplicitDeps (ast : TaskAST) : TaskAST :=
  { ast with
    tasks := (ast.tasks.filter Task.isGoal).foldl
      (fun acc g => injectGoalDeps g acc) ast.tasks }

/-! ### Cycle detection (ast.py lines 154-166 and 433-443)

`BaseTask.check_deps_graph` is a depth-first search with a shared `safe`
memo list (appended after all successors are explored) and an explicit
`stack` (appended on entry, popped on return; on revisiting a stacked id it
raises with the path `stack + [id]`).  Successors are resolved through
`get_tasks_in_dict()`.  Python's recursion is embedded with explicit fuel;
`none` models a crash (`KeyError` on an undefined id) or fuel exhaustion,
and is proved unreachable under validated references. -/

/-- The loop `for dep in self.deps.after: ts[dep].check_deps_graph(...)`,
parametric in the recursive visit (instantiated with `dfsVisit` at one fuel
less, keeping the recursion structural). -/
def dfsDepsF (d : List (String × Task))
    (visit : Task → List String → List String →
      Option (Except (List String) (List String))) :
    List String → List String → List String →
    Option (Except (List String) (List String))
  | [], safe, _ => some (Except.ok safe)
  | dep :: rest, safe, stack =>
    match alookup d dep with
    | none => none
    | some td =>
      match visit td safe stack with
      | none => none
      | some (Except.error e) => some (Except.error e)
      | some (Except.ok safe1) => dfsDepsF d visit rest safe1 stack

/-- `BaseTask.check_deps_graph` for one task: returns the grown `safe` list,
or the reported cycle path. -/
def dfsVisit (d : List (String × Task)) :
    Nat → Task → List String → List String →
    Option (Except (List String) (List String))
  | fuel, t, safe, stack =>
    if t.id ∈ safe then some (Except.ok safe)
    else if t.id ∈ stack then some (Except.error (stack ++ [t.id]))
    else
      match fuel with
      | 0 => none
      | Nat.succ f =>
        match dfsDepsF d (dfsVisit d f) t.deps.after safe (stack ++ [t.id]) with
        | none => none
        | some (Except.error e) => some (Except.error e)
        | some (Except.ok safe1) => some (Except.ok (safe1 ++ [t.id]))

/-- The outer loop of `TaskAST.check_deps_graph`: every task in the list is
visited, threading `safe` (each call starts with an empty stack). -/
def checkDgGo (d : List (String × Task)) (fuel : Nat) :
    List Task → List String → Option (Except (List String) (List String))
  | [], safe => some (Except.ok safe)
  | t :: rest, safe =>
    match dfsVisit d fuel t safe [] with
    | none => none
    | some (Except.error e) => some (Except.error e)
    | some (Except.ok safe1) => checkDgGo d fuel rest safe1

/-- `TaskAST.check_deps_graph` (ast.py lines 433-443), on the working copy
with `before` inverted and goals converted.  The fuel `|dict| + 1` bounds the
recursion depth (the stack holds distinct keys), which is proved sufficient
below. -/
def checkDepsGraphRun (ast : TaskAST) : Option (Except (List String) (List String)) :=
  checkDgGo (getTasksInDict (transformedTasks ast)) (getTasksInDict (transformedTasks ast)).length.succ
    (transformedTasks ast) []

/-- An edge of the dependency graph the checks walk: `u → v` iff the dict
entry for `u` lists `v` in `deps.after`. -/
def GEdge (d : List (String × Task)) (u v : String) : Prop :=
  ∃ t, alookup d u = some t ∧ v ∈ t.deps.after

/-- The graph has a (nonempty) cycle. -/
def Cyclic (d : List (String × Task)) : Prop :=
  ∃ u, Relation.TransGen (GEdge d) u u

/-! ### Construction-time validation (`TaskAST.check`, ast.py lines 412-420)

Order matters and is preserved: `check_refs`, then `check_deadlines`, then
implicit-dependency injection (mutating the AST kept on success), then
`check_deps_graph`. -/

inductive CheckError
  | undefinedRefs (ids : List String)
  | ddlConflict (name : String) (ids : List String)
  | depCycle (path : List String)
deriving DecidableEq, Repr

instance {ε α : Type} [DecidableEq ε] [DecidableEq α] : DecidableEq (Except ε α) :=
  fun x y =>
    match x, y with
    | .ok a, .ok b =>
      if h : a = b then isTrue (h ▸ rfl) else isFalse (fun hh => h (Except.ok.inj hh))
    | .error a, .error b =>
      if h : a = b then isTrue (h ▸ rfl) else isFalse (fun hh => h (Except.error.inj hh))
    | .ok _, .error _ => isFalse (fun hh => Except.noConfusion hh)
    | .error _, .ok _ => isFalse (fun hh => Except.noConfusion hh)

/-- `TaskAST.check`: the Pydantic `model_validator` run at construction.
`some (.ok ast')` is successful construction of `ast'` (the input with
implicit dependencies injected); `some (.error e)` a raised validation
error; `none` a crash. -/
def astCheck (ast : TaskAST) : Option (Except CheckError TaskAST) :=
  if undefinedRefsOf ast ≠ [] then
    some (Except.error (CheckError.undefinedRefs (undefinedRefsOf ast)))
  else
    match checkDeadlinesRun ast with
    | none => none
    | some (some nc) => some (Except.error (CheckError.ddlConflict nc.1 nc.2))
    | some none =>
      match checkDepsGraphRun (injectImplicitDeps ast) with
      | none => none
      | some (Except.error p) => some (Except.error (CheckError.depCycle p))
      | some (Except.ok _) => some (Except.ok (injectImplicitDeps ast))

/-! ### Topological sort (`TaskAST.topo_sort`, ast.py lines 458-494)

Kahn's algorithm on the inverted/converted working copy: repeatedly emit the
keys whose `after` set is empty, in dict order (Python iterates a set here;
any order yields the same propagation result, for the reasons given on
`propogateProperties`), subtract them from the remaining `after` sets, and
raise (`none`) if tasks remain when no candidate is left. -/

def topoGo : Nat → List (String × Task) → List String → Option (List String)
  | 0, _, _ => none
  | fuel + 1, remaining, acc =>
    let layer := (remaining.filter (fun kv => kv.2.deps.after.isEmpty)).map Prod.fst
    if layer.isEmpty then
      if remaining.isEmpty then some acc else none
    else
      topoGo fuel
        ((remaining.filter (fun kv => !(layer.contains kv.1))).map
          (fun kv =>
            (kv.1, { kv.2 with deps :=
              { kv.2.deps with after := setDiff kv.2.deps.after layer } })))
        (acc ++ layer)

/-- `TaskAST.topo_sort`. -/
def TaskAST.topoSort (ast : TaskAST) : Option (List String) :=
  topoGo (getTasksInDict (transformedTasks ast)).length.succ
    (getTasksInDict (transformedTasks ast)) []

/-! ### Property propagation (`TaskAST.propogate_properties`, ast.py 496-505)

On a deep copy, ids are visited in reversed topological order (parents before
children); each visit runs `update_timezone`, `propogate_ddl`,
`propogate_priority`.  All three mutate the dict entry (the last task with
the id).  Visit order within a topological layer is a Python set iteration;
the embedding's canonical order is faithful because deadline tightening
(`min`) and priority multiplication are commutative and `update_timezone`
touches only the visited task.  `none` models the `TypeError` Python raises
in `update_ddl` when a still-naive child deadline is compared with the
already-aware parent deadline. -/

/-- `BaseTask.update_timezone` (ast.py lines 109-112). -/
def updateTimezoneTask (default : Int) (t : Task) : Task :=
  match t.deadline with
  | none => t
  | some dl => { t with deadline := some (dl.replaceTz (t.timezone.getD default)) }

/-- `BaseTask.update_ddl` (ast.py lines 114-124): tighten the deadline
downward; comparing a naive with an aware deadline crashes (`none`). -/
def updateDdlTask (ddl : DateTime) (t : Task) : Option Task :=
  match t.deadline with
  | none => some { t with deadline := some ddl }
  | some x =>
    match dtGt x ddl with
    | none => none
    | some true => some { t with deadline := some ddl }
    | some false => some t

/-- `modifyLast` with a fallible update. -/
def modifyLastM (tid : String) (f : Task → Option Task) :
    List Task → Option (List Task)
  | [] => some []
  | t :: ts =>
    if ts.any (fun x => x.id = tid) then (modifyLastM tid f ts).map (t :: ·)
    else if t.id = tid then (f t).map (· :: ts)
    else some (t :: ts)

/-- `update_timezone` applied to the dict entry for `tid`. -/
def updateTimezoneAt (default : Int) (ast : TaskAST) (tid : String) : TaskAST :=
  { ast with tasks := modifyLast tid (updateTimezoneTask default) ast.tasks }

/-- `Goal.propogate_ddl` (ast.py lines 227-233) for the dict entry at `tid`
(a no-op for steps — whose override is `pass` — and for deadline-less
goals). -/
def propogateDdlAt (ast : TaskAST) (tid : String) : Option TaskAST :=
  match alookup (getTasksInDict ast.tasks) tid with
  | none => some ast
  | some t =>
    match t.deadline with
    | none => some ast
    | some dl =>
      if t.isGoal then
        (t.subtasksOf.foldlM (fun acc s => modifyLastM s (updateDdlTask dl) acc)
          ast.tasks).map (fun ts => { ast with tasks := ts })
      else some ast

/-- `Goal.propogate_priority` (ast.py lines 235-244) for the dict entry at
`tid`: each subtask's priority is multiplied by the goal's priority. -/
def propogatePriorityAt (ast : TaskAST) (tid : String) : TaskAST :=
  match alookup (getTasksInDict ast.tasks) tid with
  | none => ast
  | some t =>
    if t.isGoal then
      { ast with
        tasks := t.subtasksOf.foldl
          (fun acc s =>
            modifyLast s (fun x => { x with priority := x.priority * t.priority }) acc)
          ast.tasks }
    else ast

/-- One iteration of the propagation loop for the id `tid`. -/
def propogateStepAt (default : Int) (ast : TaskAST) (tid : String) :
    Option TaskAST := do
  let a1 := updateTimezoneAt default ast tid
  let a2 ← propogateDdlAt a1 tid
  pure (propogatePriorityAt a2 tid)

/-- `TaskAST.propogate_properties` (ast.py lines 496-505). -/
def TaskAST.propogateProperties (ast : TaskAST) : Option TaskAST := do
  let order ← ast.topoSort
  order.reverse.foldlM (propogateStepAt ast.config.defaultTz) ast

/-! ### Dependency normalization (`TaskAST.normalize_dependencies`, ast.py 387-410)

On a deep copy: invert `before` into `after`; then, per task, replace each
goal referenced in `after` by the leaf steps under it; finally keep only
steps.  `Goal.collect_leaf_tasks` (ast.py lines 213-225) recurses through
nested goals; the fuel (one per nesting level, at most the dict size on the
acyclic ASTs that construction admits) replaces Python's unbounded
recursion. -/

def collectLeafTasks (d : List (String × Task)) : Nat → List String → List String
  | 0, _ => []
  | fuel + 1, subs =>
    subs.foldl
      (fun acc sid =>
        match alookup d sid with
        | none => acc
        | some st =>
          match st.kind with
          | .step _ _ _ => setAdd acc sid
          | .goal subs2 _ => setUnion acc (collectLeafTasks d fuel subs2))
      []

/-- The per-task body of the normalization loop:
`result = copy(after); for t in after: if goal: result |= leaves; result.remove(t)`. -/
def expandAfter (d : List (String × Task)) (t : Task) : Task :=
  let res := t.deps.after.foldl
    (fun acc dep =>
      match alookup d dep with
      | none => acc
      | some td =>
        match td.kind with
        | .goal subs2 _ =>
          setRemove (setUnion acc (collectLeafTasks d d.length subs2)) dep
        | .step _ _ _ => acc)
    t.deps.after
  { t with deps := { t.deps with after := res } }

/-- `TaskAST.normalize_dependencies`: the returned steps (`get_steps`, in
list order).  The loop reads only `kind`/`subtasks` of other tasks and
rebinds each task's own `after`, so a `map` is faithful. -/
def TaskAST.normalizeDependencies (ast : TaskAST) : List Task :=
  ((invertDependencies ast.tasks).map
    (expandAfter (getTasksInDict (invertDependencies ast.tasks)))).filter Task.isStep

/-! ## The processed AST (`src/cascade/compiler/processed_ast.py`) -/

/-- `AtomicTask` (processed_ast.py lines 26-39); `duration` is in slots. -/
structure AtomicTask where
  name : String
  id : String
  status : Status
  priority : Int
  confidence : Int
  duration : Int
  deps : List String
  deadline : Option DateTime
  dup : Int
deriving DecidableEq, Repr

/-- `ProcessedAST` (processed_ast.py lines 42-46); the background dict is
embedded separately (`getBackgroundBlocksOf`). -/
structure ProcessedAST where
  nodes : List (String × AtomicTask)
  config : CascadeConfig
deriving DecidableEq, Repr

/-- `math.ceil(a / b)` for a positive divisor. -/
def ceilDiv (a b : Int) : Int := -((-a) / b)

/-- The `AtomicTask` built from a normalized step (processed_ast.py lines
99-110): `duration = ceil(step.duration / DURATION_UNIT)`, `deps =
step.deps.after`, deadline carried through.  (Only called on steps; the goal
branch is dead.) -/
def stepToAtomic (t : Task) : AtomicTask :=
  match t.kind with
  | .step s dur conf =>
    ⟨t.name, t.id, s, t.priority, conf, ceilDiv dur DURATION_UNIT,
      t.deps.after, t.deadline, 1⟩
  | .goal _ _ =>
    ⟨t.name, t.id, .todo, t.priority, 1, 0, t.deps.after, t.deadline, 1⟩

/-- `ProcessedAST.from_raw_ast` (processed_ast.py lines 85-117): propagate,
normalize, then enter *every* resulting step — whatever its status — into
the `nodes` dict. -/
def fromRawAst (ast : TaskAST) : Option ProcessedAST := do
  let prop ← ast.propogateProperties
  pure ⟨prop.normalizeDependencies.foldl
          (fun dd st => upsert dd st.id (stepToAtomic st)) [],
        ast.config⟩

/-- `get_nodes` (models.py lines 39-40): only `status == todo` nodes are
modeled. -/
def getNodes (p : ProcessedAST) : List (String × AtomicTask) :=
  p.nodes.filter (fun kv => decide (kv.2.status = Status.todo))

/-- The dependency-enforcement loop of `BasicModel.from_processed_ast`
(models.py lines 264-269): for every modeled node and every prereq in its
`deps`, look `interval_vars[prereq]` up — a `KeyError` (`none`) when the
prereq is not itself a modeled node — and pose `end_prereq ≤ start_task`,
recorded here as the pair `(prereq, task)`. -/
def addPrecedenceConstraints (nodes : List (String × AtomicTask)) :
    Option (List (String × String)) :=
  nodes.foldlM
    (fun acc kv =>
      kv.2.deps.foldlM
        (fun acc2 prereq =>
          if (nodes.map Prod.fst).contains prereq then
            some (acc2 ++ [(prereq, kv.1)])
          else none)
        acc)
    []

/-! ## Background blocks (`ProcessedAST.get_background_blocks`, lines 49-83)

A materialized block is an interval.  `BackgroundTask.get_sessions` wraps
`croniter_range` (external library); a background item therefore enters the
embedding with its firing times already enumerated.  `BackgroundCalendar`
fetching/parsing is external too; a calendar enters as its kept events. -/

structure Block where
  bgn : Int
  fin : Int
deriving DecidableEq, Repr

/-- Modelled from the spec: the `ics` library's `Event.intersects` (the
library is external to the repository) — `overlapping or touching` blocks
are merged into one. -/
def blockIntersects (x y : Block) : Bool :=
  decide (max x.bgn y.bgn ≤ min x.fin y.fin)

/-- Modelled from the spec: the `ics` library's `Event.join`. -/
def blockJoin (x y : Block) : Block :=
  ⟨min x.bgn y.bgn, max x.fin y.fin⟩

/-- One background dict value, post-materialization. -/
inductive BgValue
  | backgroundTask (sessions : List Int) (duration : Int)
  | calendar (events : List Block)
deriving DecidableEq, Repr

/-- The collection loop (processed_ast.py lines 50-61): each cron firing
contributes `[fire, fire + duration]`, each kept calendar event itself. -/
def collectBgBlocks (bg : List BgValue) : List Block :=
  bg.foldl
    (fun acc v =>
      match v with
      | .backgroundTask sessions dur => acc ++ sessions.map (fun s => ⟨s, s + dur⟩)
      | .calendar evs => acc ++ evs)
    []

/-- `collected.sort(key=lambda x: x.begin)` — a stable sort by begin. -/
def insertByBegin (b : Block) : List Block → List Block
  | [] => [b]
  | x :: xs => if b.bgn < x.bgn then b :: x :: xs else x :: insertByBegin b xs

def sortByBegin (l : List Block) : List Block :=
  l.foldr insertByBegin []

/-- The sweep-merge loop (processed_ast.py lines 66-83), faithfully including
its final `final.append(prev_block)`, which appends the Python `None` when
no block was collected.  Elements are therefore `Option Block`. -/
def mergeGo (prev : Option Block) : List Block → List (Option Block)
  | [] => [prev]
  | blk :: rest =>
    match prev with
    | none => mergeGo (some blk) rest
    | some p =>
      if blockIntersects p blk then mergeGo (some (blockJoin p blk)) rest
      else some p :: mergeGo (some blk) rest

/-- `ProcessedAST.get_background_blocks`. -/
def getBackgroundBlocksOf (bg : List BgValue) : List (Option Block) :=
  mergeGo none (sortByBegin (collectBgBlocks bg))

/-! ## Object-heap embedding of the two copy-producing transforms (C9)

Python mutates task *objects*; whether `normalize_dependencies` and
`propogate_properties` leave the receiver AST untouched is a statement about
object identity, so these two transforms are embedded once more against an
explicit heap: tasks live at integer addresses, an AST holds a list of
addresses, `deepcopy` allocates fresh addresses (at the end of the heap) with
copied contents, and every in-place mutation of the source
(`tasks_dict[x].deps.after.add`, `update_timezone`, `update_ddl`,
`priority *= …`) becomes `writeAt` on an address.  `topo_sort` deep-copies
internally, mutates only that private copy and discards it, so it is embedded
as a pure function of the extracted values. -/

structure Heap where
  objs : List Task
deriving DecidableEq, Repr

/-- Dereference an address (well-formed programs never read out of range). -/
def heapGet (h : Heap) (r : Nat) : Task :=
  h.objs.getD r default

def writeAt (h : Heap) (r : Nat) (f : Task → Task) : Heap :=
  ⟨listModifyIdx f r h.objs⟩

/-- `deepcopy`: append fresh copies of the referenced objects; the returned
refs point at the copies. -/
def deepcopyRefs (h : Heap) (refs : List Nat) : Heap × List Nat :=
  (⟨h.objs ++ refs.map (heapGet h)⟩,
   (List.range refs.length).map (fun i => h.objs.length + i))

/-- `get_tasks_in_dict()[tid]` at the object level: the *last* referenced
object with that id. -/
def findLastRef (h : Heap) (refs : List Nat) (tid : String) : Option Nat :=
  (refs.filter (fun r => (heapGet h r).id = tid)).getLast?

/-- One iteration of `_invert_dependencies` on the heap. -/
def invertOneS (refs : List Nat) (h : Heap) (r : Nat) : Heap :=
  let t := heapGet h r
  let h1 := t.deps.before.foldl
    (fun hh tgt =>
      match findLastRef hh refs tgt with
      | none => hh
      | some j => writeAt hh j (addAfter t.id))
    h
  writeAt h1 r clearBefore

def invertS (refs : List Nat) (h : Heap) : Heap :=
  refs.foldl (invertOneS refs) h

/-- The dict of the referenced objects (value level). -/
def heapDict (h : Heap) (refs : List Nat) : List (String × Task) :=
  getTasksInDict (refs.map (heapGet h))

/-- One iteration of the goal-flattening loop of `normalize_dependencies`:
rebind the task's own `after` set. -/
def expandOneS (refs : List Nat) (h : Heap) (r : Nat) : Heap :=
  writeAt h r (expandAfter (heapDict h refs))

/-- `TaskAST.normalize_dependencies` on the heap: deepcopy, invert on the
copy, flatten goals on the copy, return the copied steps. -/
def normalizeS (h : Heap) (refs : List Nat) : Heap × List Task :=
  let hc := deepcopyRefs h refs
  let h1 := invertS hc.2 hc.1
  let h2 := hc.2.foldl (expandOneS hc.2) h1
  (h2, (hc.2.map (heapGet h2)).filter Task.isStep)

/-- The AST value a heap + refs + config denote. -/
def extractAST (h : Heap) (refs : List Nat) (cfg : CascadeConfig) : TaskAST :=
  ⟨cfg, refs.map (heapGet h)⟩

/-- `update_timezone` on the dict entry. -/
def updateTimezoneS (default : Int) (refs : List Nat) (h : Heap)
    (tid : String) : Heap :=
  match findLastRef h refs tid with
  | none => h
  | some j => writeAt h j (updateTimezoneTask default)

/-- `tasks_dict[s].update_ddl(dl)` on the heap; `false` models the
`TypeError` crash (the heap at the crash point is returned). -/
def updateDdlRefS (refs : List Nat) (dl : DateTime) (h : Heap) (sid : String) :
    Heap × Bool :=
  match findLastRef h refs sid with
  | none => (h, true)
  | some j =>
    match updateDdlTask dl (heapGet h j) with
    | none => (h, false)
    | some t2 => (writeAt h j (fun _ => t2), true)

/-- `Goal.propogate_ddl` on the heap. -/
def propogateDdlS (refs : List Nat) (h : Heap) (tid : String) : Heap × Bool :=
  match findLastRef h refs tid with
  | none => (h, true)
  | some j =>
    let t := heapGet h j
    match t.deadline with
    | none => (h, true)
    | some dl =>
      if t.isGoal then
        t.subtasksOf.foldl
          (fun acc s => if acc.2 then updateDdlRefS refs dl acc.1 s else acc)
          (h, true)
      else (h, true)

/-- `Goal.propogate_priority` on the heap. -/
def propogatePriorityS (refs : List Nat) (h : Heap) (tid : String) : Heap :=
  match findLastRef h refs tid with
  | none => h
  | some j =>
    let t := heapGet h j
    if t.isGoal then
      t.subtasksOf.foldl
        (fun hh s =>
          match findLastRef hh refs s with
          | none => hh
          | some j2 =>
            writeAt hh j2 (fun x => { x with priority := x.priority * t.priority }))
        h
    else h

/-- `TaskAST.propogate_properties` on the heap: topological order of the
receiver's values, deepcopy, then the per-id updates on the copy; the `Bool`
is `false` when Python would raise mid-loop (the heap stops there). -/
def propogateS (h : Heap) (refs : List Nat) (cfg : CascadeConfig) :
    Heap × Bool :=
  match (extractAST h refs cfg).topoSort with
  | none => (h, false)
  | some order =>
    let hc := deepcopyRefs h refs
    order.reverse.foldl
      (fun acc tid =>
        if acc.2 then
          let h1 := updateTimezoneS cfg.defaultTz hc.2 acc.1 tid
          let r2 := propogateDdlS hc.2 h1 tid
          if r2.2 then (propogatePriorityS hc.2 r2.1 tid, true) else r2
        else acc)
      (hc.1, true)

/-! ## Concrete inputs used by the claim theorems -/

/-- A configuration (UTC default timezone). -/
def cfg0 : CascadeConfig := ⟨0, false, 120⟩

/-- A step with the given id, status, `after` set and priority. -/
def mkStep (nm tid : String) (st : Status) (after : List String)
    (ddl : Option DateTime) (prio : Int) : Task :=
  ⟨nm, tid, ddl, none, prio, .step st DURATION_UNIT 1, ⟨[], after⟩⟩

/-- C1's failing input: a `done` step `a` and a live step `b` with
`deps.after = {a}`. -/
def c1ast : TaskAST :=
  ⟨cfg0, [mkStep "A" "a" .done [] none 1, mkStep "B" "b" .todo ["a"] none 1]⟩

/-- C3's counterexample input: `c` (deadline 1000) depends on `b` (no
deadline), which depends on `a` (deadline 3000) — a transitive predecessor
with a strictly later deadline, invisible to the direct check. -/
def c3ast : TaskAST :=
  ⟨cfg0, [mkStep "A" "a" .todo [] (some ⟨3000, none⟩) 1,
          mkStep "B" "b" .todo ["a"] none 1,
          mkStep "C" "c" .todo ["b"] (some ⟨1000, none⟩) 1]⟩

/-- C4's counterexample input: a priority-2 goal over a priority-1 step. -/
def c4ast : TaskAST :=
  ⟨cfg0, [mkStep "S" "s" .todo [] none 1,
          ⟨"G", "g", none, none, 2, .goal ["s"] false, ⟨[], []⟩⟩]⟩

/-- A trivial valid AST (one step, no goals, no deadlines) witnessing the
amended idempotence claim. -/
def c4trivialAst : TaskAST :=
  ⟨cfg0, [mkStep "T" "t" .todo [] none 1]⟩

/-- C5's and C10's duplicate-id input: the id `a` occurs twice; the first
occurrence has no dependencies, the last depends on `b`, and `b` depends on
`a` — the collapsed dependency graph is cyclic, yet the DFS marks `a` safe
from the *first* object and never explores the last one's edges. -/
def dupAst : TaskAST :=
  ⟨cfg0, [mkStep "A1" "a" .todo [] none 1,
          mkStep "B" "b" .todo ["a"] none 1,
          mkStep "A2" "a" .todo ["b"] none 1]⟩

/-- The non-dependency payload of a task (everything the dependency
transforms leave untouched). -/
def Task.core (t : Task) :
    String × String × Option DateTime × Option Int × Int × TaskKind :=
  (t.id, t.name, t.deadline, t.timezone, t.priority, t.kind)

/-- Every id a task mentions lies in `ids` (the invariant `check_refs`
establishes). -/
def TaskClosed (ids : List String) (t : Task) : Prop :=
  (∀ r ∈ t.deps.before, r ∈ ids) ∧ (∀ r ∈ t.deps.after, r ∈ ids) ∧
    (∀ r ∈ t.subtasksOf, r ∈ ids)

def RefsClosed (ts : List Task) (ids : List String) : Prop :=
  ∀ t ∈ ts, TaskClosed ids t

/-- Whether `dep` is a deadline conflict for a task with deadline `dl`. -/
def conflictPred (origDict : List (String × Task)) (dl : DateTime)
    (dep : String) : Bool :=
  match alookup origDict dep with
  | none => false
  | some td =>
    match td.deadline with
    | none => false
    | some dl2 => (dtGt dl2 dl).getD false

/-- The ids of `deps` whose (original-dict) deadline is strictly later than
`dl` — the set `BaseTask.check_deadlines` collects for one task. -/
def conflictingDeps (origDict : List (String × Task)) (dl : DateTime)
    (deps : List String) : List String :=
  deps.filter (conflictPred origDict dl)

/-- `i` is a direct predecessor of `t` (an id in `t.deps.after`) whose
deadline — resolved through `origDict` — is strictly later than `t`'s. -/
def depConflict (origDict : List (String × Task)) (t : Task) (i : String) : Prop :=
  i ∈ t.deps.after ∧ ∃ dl, t.deadline = some dl ∧
    ∃ td, alookup origDict i = some td ∧
      ∃ dl2, td.deadline = some dl2 ∧ dtGt dl2 dl = some true

def taskDirectConflict (origDict : List (String × Task)) (t : Task) : Prop :=
  ∃ i, depConflict origDict t i

/-- Some task of the inverted/converted working copy has a *direct*
predecessor with a strictly later deadline. -/
def DirectConflict (ast : TaskAST) : Prop :=
  ∃ t ∈ transformedTasks ast, taskDirectConflict (getTasksInDict ast.tasks) t

/-- A task mentions only ids in `ids` and its own id lies in `ids`. -/
def TaskGood (ids : List String) (t : Task) : Prop :=
  TaskClosed ids t ∧ t.id ∈ ids

def AllGood (ids : List String) (ts : List Task) : Prop :=
  ∀ t ∈ ts, TaskGood ids t

/-- All deadlines of the AST are naive — what Pydantic's `NaiveDatetime`
guarantees for every constructed `TaskAST`. -/
def allNaiveDeadlines (ast : TaskAST) : Bool :=
  ast.tasks.all (fun t =>
    match t.deadline with
    | none => true
    | some dl => dl.tz.isNone)

/-! ### The DFS invariants (used to settle the cycle-check claim)

`SafeInv` states that `safe` lists its members in reverse-topological
order: every `after`-dependency of a member occurs strictly earlier in the
list.  `CyclePath` characterises the error value the DFS reports: a chain
of graph edges whose last node already occurred earlier, closing a cycle.
The three `...Out` predicates package the postconditions of the three
nested loops of the check. -/

def SafeInv (d : List (String × Task)) (safe : List String) : Prop :=
  ∀ u ∈ safe, ∀ td, alookup d u = some td → ∀ v ∈ td.deps.after,
    v ∈ safe ∧ safe.indexOf v < safe.indexOf u

def CyclePath (d : List (String × Task)) (e : List String) : Prop :=
  List.Chain' (GEdge d) e ∧ ∃ l1 x l2, e = l1 ++ x :: (l2 ++ [x])

def VisitOut (d : List (String × Task)) (ids safe stack : List String)
    (tid : String) : Option (Except (List String) (List String)) → Prop
  | none => False
  | some (Except.error e) => CyclePath d e
  | some (Except.ok safe1) =>
      (∃ l, safe1 = safe ++ l) ∧ SafeInv d safe1 ∧ (∀ s ∈ safe1, s ∈ ids) ∧
        tid ∈ safe1 ∧ (∀ x ∈ safe1, x ∈ safe ∨ x ∉ stack)

def DepsOut (d : List (String × Task)) (ids safe stack : List String)
    (L : List String) : Option (Except (List String) (List String)) → Prop
  | none => False
  | some (Except.error e) => CyclePath d e
  | some (Except.ok safe1) =>
      (∃ l, safe1 = safe ++ l) ∧ SafeInv d safe1 ∧ (∀ s ∈ safe1, s ∈ ids) ∧
        (∀ dep ∈ L, dep ∈ safe1) ∧ (∀ x ∈ safe1, x ∈ safe ∨ x ∉ stack)

def LoopOut (d : List (String × Task)) (ids safe : List String)
    (L : List Task) : Option (Except (List String) (List String)) → Prop
  | none => False
  | some (Except.error e) => CyclePath d e
  | some (Except.ok safeF) =>
      (∃ l, safeF = safe ++ l) ∧ SafeInv d safeF ∧ (∀ s ∈ safeF, s ∈ ids) ∧
        ∀ t ∈ L, t.id ∈ safeF

/-! ## Helper lemmas about the set embedding -/

theorem mem_setAdd {s : List String} {x y : String} :
    x ∈ setAdd s y ↔ x ∈ s ∨ x = y := by
  unfold setAdd
  by_cases h : y ∈ s
  · rw [if_pos h]
    constructor
    · exact Or.inl
    · rintro (hx | rfl)
      · exact hx
      · exact h
  · rw [if_neg h]
    simp [List.mem_append]

theorem mem_setUnion {s xs : List String} {x : String} :
    x ∈ setUnion s xs ↔ x ∈ s ∨ x ∈ xs := by
  unfold setUnion
  induction xs generalizing s with
  | nil => simp
  | cons y ys ih =>
    rw [List.foldl_cons, ih]
    rw [mem_setAdd]
    constructor
    · rintro ((hx | rfl) | hx)
      · exact Or.inl hx
      · exact Or.inr (List.mem_cons_self _ _)
      · exact Or.inr (List.mem_cons_of_mem _ hx)
    · rintro (hx | hx)
      · exact Or.inl (Or.inl hx)
      · rcases List.mem_cons.1 hx with rfl | hx
        · exact Or.inl (Or.inr rfl)
        · exact Or.inr hx

/-! ## Helper lemmas: the dependency transforms only touch `deps` -/

theorem core_modifyLast {tid : String} {f : Task → Task}
    (hf : ∀ x, (f x).core = x.core) :
    ∀ l : List Task, (modifyLast tid f l).map Task.core = l.map Task.core := by
  intro l
  induction l with
  | nil => rfl
  | cons t ts ih =>
    unfold modifyLast
    by_cases h1 : ts.any (fun x => x.id = tid) = true
    · rw [if_pos h1, List.map_cons, List.map_cons, ih]
    · rw [if_neg h1]
      by_cases h2 : t.id = tid
      · rw [if_pos h2, List.map_cons, List.map_cons, hf]
      · rw [if_neg h2]

theorem core_listModifyIdx {f : Task → Task} (hf : ∀ x, (f x).core = x.core) :
    ∀ (i : Nat) (l : List Task),
      (listModifyIdx f i l).map Task.core = l.map Task.core := by
  intro i l
  induction l generalizing i with
  | nil => cases i <;> rfl
  | cons t ts ih =>
    cases i with
    | zero => simp [listModifyIdx, hf]
    | succ n => simp [listModifyIdx, ih]

theorem core_addAfter (v : String) (x : Task) : (addAfter v x).core = x.core := rfl

theorem core_clearBefore (x : Task) : (clearBefore x).core = x.core := rfl

theorem core_foldl_addAfter (bs : List String) (tid : String) :
    ∀ ts : List Task,
      ((bs.foldl (fun acc tgt => modifyLast tgt (addAfter tid) acc) ts).map
        Task.core) = ts.map Task.core := by
  induction bs with
  | nil => intro ts; rfl
  | cons b bs ih =>
    intro ts
    rw [List.foldl_cons, ih, core_modifyLast (core_addAfter tid)]

theorem core_invertGo :
    ∀ (fuel i : Nat) (ts : List Task),
      (invertGo ts fuel i).map Task.core = ts.map Task.core := by
  intro fuel
  induction fuel with
  | zero => intro i ts; rfl
  | succ f ih =>
    intro i ts
    unfold invertGo
    cases hg : ts.get? i with
    | none => rfl
    | some t =>
      rw [ih, core_listModifyIdx core_clearBefore, core_foldl_addAfter]

theorem core_invertDependencies (ts : List Task) :
    (invertDependencies ts).map Task.core = ts.map Task.core :=
  core_invertGo ts.length 0 ts

theorem core_convertGoalToDeps (ts : List Task) :
    (convertGoalToDeps ts).map Task.core = ts.map Task.core := by
  unfold convertGoalToDeps
  rw [List.map_map]
  apply List.map_congr_left
  intro t _
  by_cases hg : t.isGoal = true
  · simp only [Function.comp_apply, if_pos hg]
    rfl
  · simp only [Function.comp_apply, if_neg hg]

theorem core_injectGoalDeps (g : Task) (ts : List Task) :
    (injectGoalDeps g ts).map Task.core = ts.map Task.core := by
  unfold injectGoalDeps
  by_cases hi : g.implicitOrder = true
  · rw [if_pos hi]
    generalize List.range g.subtasksOf.length = idxs
    induction idxs generalizing ts with
    | nil => rfl
    | cons i is ih =>
      rw [List.foldl_cons]
      by_cases h0 : i = 0
      · rw [if_pos h0]
        exact ih ts
      · rw [if_neg h0]
        rw [ih]
        apply core_modifyLast
        intro x
        rfl
  · rw [if_neg hi]

theorem core_foldl_inject (gs : List Task) :
    ∀ ts : List Task,
      ((gs.foldl (fun acc g => injectGoalDeps g acc) ts).map Task.core) =
        ts.map Task.core := by
  induction gs with
  | nil => intro ts; rfl
  | cons g gs ih =>
    intro ts
    rw [List.foldl_cons, ih, core_injectGoalDeps]

theorem core_injectImplicitDeps (ast : TaskAST) :
    (injectImplicitDeps ast).tasks.map Task.core = ast.tasks.map Task.core := by
  unfold injectImplicitDeps
  exact core_foldl_inject _ _

theorem core_transformedTasks (ast : TaskAST) :
    (transformedTasks ast).map Task.core = ast.tasks.map Task.core := by
  unfold transformedTasks
  rw [core_convertGoalToDeps, core_invertDependencies]

/-! ## Helper lemmas about the dict embedding -/

theorem find_map_overwrite {α : Type} (d : List (String × α)) (k : String) (v : α)
    (h : d.any (fun kv => kv.1 = k) = true) :
    (d.map (fun kv => if kv.1 = k then (k, v) else kv)).find?
      (fun kv => kv.1 = k) = some (k, v) := by
  induction d with
  | nil => simp at h
  | cons kv d ih =>
    by_cases hk : kv.1 = k
    · simp [List.find?, hk]
    · have h2 : d.any (fun kv => kv.1 = k) = true := by
        simp only [List.any_cons] at h
        rcases Bool.or_eq_true_iff.1 h with h1 | h1
        · exact absurd (of_decide_eq_true h1) hk
        · exact h1
      simp [List.find?, hk, ih h2]

theorem alookup_upsert_self {α : Type} (d : List (String × α)) (k : String) (v : α) :
    alookup (upsert d k v) k = some v := by
  unfold upsert alookup
  by_cases h : d.any (fun kv => kv.1 = k) = true
  · rw [if_pos h, find_map_overwrite d k v h]
    rfl
  · rw [if_neg h]
    induction d with
    | nil => simp [List.find?]
    | cons kv d ih =>
      have hk : (kv.1 = k) = False := by
        simp only [List.any_cons, Bool.or_eq_true_iff, not_or] at h
        simp only [eq_iff_iff, iff_false]
        intro hh
        exact h.1 (decide_eq_true hh)
      have h2 : ¬(d.any (fun kv => kv.1 = k) = true) := by
        simp only [List.any_cons, Bool.or_eq_true_iff, not_or] at h
        exact h.2
      simp only [List.cons_append, List.find?, hk]
      simpa using ih h2

theorem alookup_upsert_ne {α : Type} (d : List (String × α)) (k kq : String) (v : α)
    (h : kq ≠ k) :
    alookup (upsert d k v) kq = alookup d kq := by
  unfold upsert alookup
  by_cases hany : d.any (fun kv => kv.1 = k) = true
  · rw [if_pos hany]
    clear hany
    induction d with
    | nil => rfl
    | cons kv d ih =>
      rw [List.map_cons]
      by_cases hkq : kv.1 = kq
      · have hk : ¬kv.1 = k := fun hh => h (hkq.symm.trans hh)
        rw [if_neg hk, List.find?_cons_of_pos _ (by simpa using hkq),
          List.find?_cons_of_pos _ (by simpa using hkq)]
      · by_cases hk : kv.1 = k
        · rw [if_pos hk,
            List.find?_cons_of_neg _ (by simpa using fun hh => h hh.symm),
            List.find?_cons_of_neg _ (by simpa using hkq)]
          exact ih
        · rw [if_neg hk, List.find?_cons_of_neg _ (by simpa using hkq),
            List.find?_cons_of_neg _ (by simpa using hkq)]
          exact ih
  · rw [if_neg hany]
    induction d with
    | nil =>
      rw [List.nil_append,
        List.find?_cons_of_neg _ (by simpa using fun hh => h hh.symm)]
    | cons kv d ih =>
      have hany2 : ¬(d.any (fun kv => kv.1 = k) = true) := by
        simp only [List.any_cons, Bool.or_eq_true_iff, not_or] at hany
        exact hany.2
      rw [List.cons_append]
      by_cases hkq : kv.1 = kq
      · rw [List.find?_cons_of_pos _ (by simpa using hkq),
          List.find?_cons_of_pos _ (by simpa using hkq)]
      · rw [List.find?_cons_of_neg _ (by simpa using hkq),
          List.find?_cons_of_neg _ (by simpa using hkq)]
        exact ih hany2

theorem getTasksInDict_concat (ts : List Task) (t : Task) :
    getTasksInDict (ts ++ [t]) = upsert (getTasksInDict ts) t.id t := by
  unfold getTasksInDict
  rw [List.foldl_append]
  rfl

/-- The dict built by `get_tasks_in_dict` resolves an id to the *last* task
in the list carrying it. -/
theorem alookup_getTasksInDict (ts : List Task) (k : String) :
    alookup (getTasksInDict ts) k =
      (ts.filter (fun t => t.id = k)).getLast? := by
  induction ts using List.reverseRecOn with
  | nil => rfl
  | append_singleton ts t ih =>
    rw [getTasksInDict_concat, List.filter_append]
    by_cases hk : t.id = k
    · have hfil : List.filter (fun t => decide (t.id = k)) [t] = [t] := by
        simp [List.filter, hk]
      rw [hfil, List.getLast?_concat, ← hk, alookup_upsert_self]
    · have hfil : List.filter (fun t => decide (t.id = k)) [t] = [] := by
        simp [List.filter, hk]
      rw [hfil, List.append_nil, alookup_upsert_ne _ _ _ _ (fun hh => hk hh.symm), ih]

/-! ## Helper lemmas about dict membership -/

theorem mem_upsert {α : Type} {d : List (String × α)} {k : String} {v : α}
    {kv : String × α} (h : kv ∈ upsert d k v) : kv ∈ d ∨ kv = (k, v) := by
  unfold upsert at h
  by_cases hany : d.any (fun kv => kv.1 = k) = true
  · rw [if_pos hany] at h
    rcases List.mem_map.1 h with ⟨kv0, hkv0, heq⟩
    by_cases hk : kv0.1 = k
    · rw [if_pos hk] at heq
      exact Or.inr heq.symm
    · rw [if_neg hk] at heq
      exact Or.inl (heq ▸ hkv0)
  · rw [if_neg hany] at h
    rcases List.mem_append.1 h with h1 | h1
    · exact Or.inl h1
    · exact Or.inr (List.mem_singleton.1 h1)

theorem getTasksInDict_entry (ts : List Task) :
    ∀ kv ∈ getTasksInDict ts, kv.1 = kv.2.id ∧ kv.2 ∈ ts := by
  induction ts using List.reverseRecOn with
  | nil =>
    intro kv h
    simp [getTasksInDict] at h
  | append_singleton ts t ih =>
    intro kv h
    rw [getTasksInDict_concat] at h
    rcases mem_upsert h with h1 | rfl
    · obtain ⟨h2, h3⟩ := ih kv h1
      exact ⟨h2, List.mem_append_left _ h3⟩
    · exact ⟨rfl, List.mem_append_right _ (List.mem_singleton.2 rfl)⟩

theorem alookup_mem {α : Type} {d : List (String × α)} {k : String} {v : α}
    (h : alookup d k = some v) : (k, v) ∈ d := by
  unfold alookup at h
  cases hf : d.find? (fun kv => kv.1 = k) with
  | none => rw [hf] at h; cases h
  | some kv =>
    rw [hf] at h
    have hm := List.mem_of_find?_eq_some hf
    have hp := List.find?_some hf
    have hk : kv.1 = k := of_decide_eq_true hp
    have hv : kv.2 = v := Option.some.inj h
    have : kv = (k, v) := Prod.ext hk hv
    exact this ▸ hm

/-- A task found through the dict is a task of the list with that id. -/
theorem alookup_task_mem {ts : List Task} {k : String} {t : Task}
    (h : alookup (getTasksInDict ts) k = some t) : t ∈ ts ∧ t.id = k := by
  have hm := alookup_mem h
  obtain ⟨h1, h2⟩ := getTasksInDict_entry ts _ hm
  exact ⟨h2, h1.symm⟩

/-! ## Claim C4: identity of propagation on priority-1, deadline-free ASTs -/

theorem modifyLast_congr_id {tid : String} {f : Task → Task} :
    ∀ l : List Task, (∀ x ∈ l, f x = x) → modifyLast tid f l = l := by
  intro l
  induction l with
  | nil => intro _; rfl
  | cons t ts ih =>
    intro hf
    unfold modifyLast
    by_cases hb : ts.any (fun x => x.id = tid) = true
    · rw [if_pos hb, ih (fun x hx => hf x (List.mem_cons_of_mem _ hx))]
    · rw [if_neg hb]
      by_cases h2 : t.id = tid
      · rw [if_pos h2, hf t (List.mem_cons_self _ _)]
      · rw [if_neg h2]

theorem foldl_modifyLast_id {f : Task → Task} (hf : ∀ x, f x = x) :
    ∀ (subs : List String) (l : List Task),
      subs.foldl (fun acc s => modifyLast s f acc) l = l := by
  intro subs
  induction subs with
  | nil => intro l; rfl
  | cons s ss ih =>
    intro l
    rw [List.foldl_cons, modifyLast_congr_id l (fun x _ => hf x), ih]

theorem propogateStepAt_id (default : Int) (ast : TaskAST) (tid : String)
    (h1 : ∀ t ∈ ast.tasks, t.isGoal = true → t.priority = 1)
    (h2 : ∀ t ∈ ast.tasks, t.deadline = none) :
    propogateStepAt default ast tid = some ast := by
  have htz : updateTimezoneAt default ast tid = ast := by
    unfold updateTimezoneAt
    have hms : modifyLast tid (updateTimezoneTask default) ast.tasks = ast.tasks := by
      apply modifyLast_congr_id
      intro x hx
      unfold updateTimezoneTask
      rw [h2 x hx]
    rw [hms]
  have hddl : propogateDdlAt ast tid = some ast := by
    unfold propogateDdlAt
    split
    · rfl
    · next t hl =>
        obtain ⟨hmem, _⟩ := alookup_task_mem hl
        rw [h2 t hmem]
  have hpr : propogatePriorityAt ast tid = ast := by
    unfold propogatePriorityAt
    split
    · rfl
    · next t hl =>
        obtain ⟨hmem, _⟩ := alookup_task_mem hl
        by_cases hg : t.isGoal = true
        · have hp1 : t.priority = 1 := h1 t hmem hg
          have hfid : ∀ x : Task, { x with priority := x.priority * t.priority } = x := by
            intro x
            rw [hp1, Int.mul_one]
          rw [if_pos hg, foldl_modifyLast_id hfid]
        · rw [if_neg hg]
  show (propogateDdlAt (updateTimezoneAt default ast tid) tid).bind
      (fun a2 => some (propogatePriorityAt a2 tid)) = some ast
  rw [htz, hddl]
  show some (propogatePriorityAt ast tid) = some ast
  rw [hpr]

theorem foldlM_propogateStep_id (ast : TaskAST)
    (h1 : ∀ t ∈ ast.tasks, t.isGoal = true → t.priority = 1)
    (h2 : ∀ t ∈ ast.tasks, t.deadline = none) :
    ∀ l : List String,
      l.foldlM (propogateStepAt ast.config.defaultTz) ast = some ast := by
  intro l
  induction l with
  | nil => rfl
  | cons tid rest ih =>
    show (propogateStepAt ast.config.defaultTz ast tid).bind
        (fun a => rest.foldlM (propogateStepAt ast.config.defaultTz) a) = some ast
    rw [propogateStepAt_id _ _ _ h1 h2]
    show rest.foldlM (propogateStepAt ast.config.defaultTz) ast = some ast
    exact ih

theorem propogateProperties_id (ast : TaskAST)
    (h1 : ∀ t ∈ ast.tasks, t.isGoal = true → t.priority = 1)
    (h2 : ∀ t ∈ ast.tasks, t.deadline = none) :
    ∀ x, ast.propogateProperties = some x → x = ast := by
  intro x hx
  unfold TaskAST.propogateProperties at hx
  cases ht : ast.topoSort with
  | none => rw [ht] at hx; cases hx
  | some order =>
    rw [ht] at hx
    replace hx : order.reverse.foldlM (propogateStepAt ast.config.defaultTz) ast =
        some x := hx
    rw [foldlM_propogateStep_id ast h1 h2 order.reverse] at hx
    exact (Option.some.inj hx).symm

/-! ## Reference closure is established by `check_refs` and preserved by the
dependency transforms -/

theorem foldl_setUnion_mono (ids : List String) :
    ∀ (l : List Task) (acc : List String) (x : String), x ∈ acc →
      x ∈ l.foldl (fun acc t =>
        setUnion acc (t.refsOf.filter (fun r => !(decide (r ∈ ids))))) acc := by
  intro l
  induction l with
  | nil => intro acc x hx; exact hx
  | cons t ts ih =>
    intro acc x hx
    rw [List.foldl_cons]
    exact ih _ _ (mem_setUnion.2 (Or.inl hx))

theorem mem_undefined_fold (ids : List String) :
    ∀ (l : List Task) (acc : List String) (t : Task), t ∈ l →
      ∀ r ∈ t.refsOf, r ∉ ids →
        r ∈ l.foldl (fun acc t =>
          setUnion acc (t.refsOf.filter (fun r => !(decide (r ∈ ids))))) acc := by
  intro l
  induction l with
  | nil => intro acc t ht; cases ht
  | cons t0 ts ih =>
    intro acc t ht r hr hnot
    rw [List.foldl_cons]
    rcases List.mem_cons.1 ht with rfl | ht2
    · apply foldl_setUnion_mono
      apply mem_setUnion.2
      refine Or.inr (List.mem_filter.2 ⟨hr, ?_⟩)
      simp [hnot]
    · exact ih _ t ht2 r hr hnot

theorem refsClosed_of_no_undefined (ast : TaskAST)
    (h : undefinedRefsOf ast = []) :
    RefsClosed ast.tasks (getIds ast.tasks) := by
  intro t ht
  have key : ∀ r ∈ t.refsOf, r ∈ getIds ast.tasks := by
    intro r hr
    by_contra hnot
    have hmem : r ∈ undefinedRefsOf ast :=
      mem_undefined_fold (getIds ast.tasks) ast.tasks [] t ht r hr hnot
    rw [h] at hmem
    exact absurd hmem (List.not_mem_nil r)
  unfold Task.refsOf at key
  refine ⟨fun r hr => key r ?_, fun r hr => key r ?_, fun r hr => key r ?_⟩
  · exact List.mem_append_left _ (List.mem_append_left _ hr)
  · exact List.mem_append_left _ (List.mem_append_right _ hr)
  · exact List.mem_append_right _ hr

theorem mem_modifyLast {tid : String} {f : Task → Task} :
    ∀ {l : List Task} {tq : Task}, tq ∈ modifyLast tid f l →
      tq ∈ l ∨ ∃ t ∈ l, tq = f t := by
  intro l
  induction l with
  | nil => intro tq h; cases h
  | cons t ts ih =>
    intro tq h
    unfold modifyLast at h
    by_cases hb : ts.any (fun x => x.id = tid) = true
    · rw [if_pos hb] at h
      rcases List.mem_cons.1 h with rfl | h2
      · exact Or.inl (List.mem_cons_self _ _)
      · rcases ih h2 with h3 | ⟨t0, ht0, rfl⟩
        · exact Or.inl (List.mem_cons_of_mem _ h3)
        · exact Or.inr ⟨t0, List.mem_cons_of_mem _ ht0, rfl⟩
    · rw [if_neg hb] at h
      by_cases h2 : t.id = tid
      · rw [if_pos h2] at h
        rcases List.mem_cons.1 h with rfl | h3
        · exact Or.inr ⟨t, List.mem_cons_self _ _, rfl⟩
        · exact Or.inl (List.mem_cons_of_mem _ h3)
      · rw [if_neg h2] at h
        exact Or.inl h

theorem mem_listModifyIdx {f : Task → Task} :
    ∀ {i : Nat} {l : List Task} {tq : Task}, tq ∈ listModifyIdx f i l →
      tq ∈ l ∨ ∃ t ∈ l, tq = f t := by
  intro i l
  induction l generalizing i with
  | nil => intro tq h; cases i <;> cases h
  | cons t ts ih =>
    intro tq h
    cases i with
    | zero =>
      rcases List.mem_cons.1 h with rfl | h2
      · exact Or.inr ⟨t, List.mem_cons_self _ _, rfl⟩
      · exact Or.inl (List.mem_cons_of_mem _ h2)
    | succ n =>
      rcases List.mem_cons.1 h with rfl | h2
      · exact Or.inl (List.mem_cons_self _ _)
      · rcases ih h2 with h3 | ⟨t0, ht0, rfl⟩
        · exact Or.inl (List.mem_cons_of_mem _ h3)
        · exact Or.inr ⟨t0, List.mem_cons_of_mem _ ht0, rfl⟩

theorem allGood_modifyLast {ids : List String} {tid : String} {f : Task → Task}
    (hf : ∀ t, TaskGood ids t → TaskGood ids (f t)) {l : List Task}
    (h : AllGood ids l) : AllGood ids (modifyLast tid f l) := by
  intro tq htq
  rcases mem_modifyLast htq with h1 | ⟨t, ht, rfl⟩
  · exact h _ h1
  · exact hf _ (h _ ht)

theorem allGood_listModifyIdx {ids : List String} {i : Nat} {f : Task → Task}
    (hf : ∀ t, TaskGood ids t → TaskGood ids (f t)) {l : List Task}
    (h : AllGood ids l) : AllGood ids (listModifyIdx f i l) := by
  intro tq htq
  rcases mem_listModifyIdx htq with h1 | ⟨t, ht, rfl⟩
  · exact h _ h1
  · exact hf _ (h _ ht)

theorem taskGood_addAfter {ids : List String} {v : String} (hv : v ∈ ids)
    {t : Task} (h : TaskGood ids t) : TaskGood ids (addAfter v t) := by
  obtain ⟨⟨hb, ha, hs⟩, hid⟩ := h
  refine ⟨⟨hb, ?_, hs⟩, hid⟩
  intro r hr
  rcases mem_setAdd.1 hr with h1 | rfl
  · exact ha r h1
  · exact hv

theorem taskGood_clearBefore {ids : List String} {t : Task}
    (h : TaskGood ids t) : TaskGood ids (clearBefore t) := by
  obtain ⟨⟨hb, ha, hs⟩, hid⟩ := h
  exact ⟨⟨fun r hr => absurd hr (List.not_mem_nil r), ha, hs⟩, hid⟩

theorem allGood_foldl_addAfter {ids : List String} {v : String} (hv : v ∈ ids) :
    ∀ (keys : List String) {l : List Task}, AllGood ids l →
      AllGood ids (keys.foldl (fun acc tgt => modifyLast tgt (addAfter v) acc) l) := by
  intro keys
  induction keys with
  | nil => intro l h; exact h
  | cons kk ks ih =>
    intro l h
    rw [List.foldl_cons]
    exact ih (allGood_modifyLast (fun t => taskGood_addAfter hv) h)

theorem allGood_invertGo {ids : List String} :
    ∀ (fuel i : Nat) {ts : List Task}, AllGood ids ts →
      AllGood ids (invertGo ts fuel i) := by
  intro fuel
  induction fuel with
  | zero => intro i ts h; exact h
  | succ f ih =>
    intro i ts h
    unfold invertGo
    cases hg : ts.get? i with
    | none => exact h
    | some t =>
      have ht : t ∈ ts := List.get?_mem hg
      have hid : t.id ∈ ids := (h t ht).2
      exact ih _ (allGood_listModifyIdx (fun x => taskGood_clearBefore)
        (allGood_foldl_addAfter hid _ h))

theorem allGood_invertDependencies {ids : List String} {ts : List Task}
    (h : AllGood ids ts) : AllGood ids (invertDependencies ts) :=
  allGood_invertGo _ _ h

theorem allGood_convertGoalToDeps {ids : List String} {ts : List Task}
    (h : AllGood ids ts) : AllGood ids (convertGoalToDeps ts) := by
  intro tq htq
  rcases List.mem_map.1 htq with ⟨t, ht, rfl⟩
  obtain ⟨⟨hb, ha, hs⟩, hid⟩ := h t ht
  by_cases hg : t.isGoal = true
  · rw [if_pos hg]
    refine ⟨⟨hb, ?_, hs⟩, hid⟩
    intro r hr
    rcases mem_setUnion.1 hr with h1 | h1
    · exact ha r h1
    · exact hs r h1
  · rw [if_neg hg]
    exact ⟨⟨hb, ha, hs⟩, hid⟩

theorem allGood_start (ast : TaskAST) (h : undefinedRefsOf ast = []) :
    AllGood (getIds ast.tasks) ast.tasks := by
  intro t ht
  exact ⟨refsClosed_of_no_undefined ast h t ht, List.mem_map_of_mem _ ht⟩

theorem allGood_transformed (ast : TaskAST) (h : undefinedRefsOf ast = []) :
    AllGood (getIds ast.tasks) (transformedTasks ast) :=
  allGood_convertGoalToDeps (allGood_invertDependencies (allGood_start ast h))

theorem alookup_some_of_mem_ids {ts : List Task} {k : String}
    (h : k ∈ getIds ts) : ∃ v, alookup (getTasksInDict ts) k = some v := by
  rw [alookup_getTasksInDict]
  rcases List.mem_map.1 h with ⟨t, ht, rfl⟩
  have hf : t ∈ ts.filter (fun x => x.id = t.id) :=
    List.mem_filter.2 ⟨ht, by simp⟩
  have hne : ts.filter (fun x => x.id = t.id) ≠ [] := by
    intro hnil
    rw [hnil] at hf
    exact absurd hf (List.not_mem_nil t)
  rcases Option.isSome_iff_exists.1 (List.getLast?_isSome.2 hne) with ⟨v, hv⟩
  exact ⟨v, hv⟩

/-! ## Deadlines are untouched by the dependency transforms -/

theorem deadline_eq_of_core_eq {t1 t2 : Task} (h : t1.core = t2.core) :
    t1.deadline = t2.deadline :=
  congrArg (fun c => c.2.2.1) h

theorem transformed_deadline_naive (ast : TaskAST)
    (hnaive : allNaiveDeadlines ast = true) :
    ∀ t ∈ transformedTasks ast, ∀ dl, t.deadline = some dl → dl.tz = none := by
  intro t ht dl hdl
  have hcore : t.core ∈ (transformedTasks ast).map Task.core :=
    List.mem_map_of_mem _ ht
  rw [core_transformedTasks] at hcore
  rcases List.mem_map.1 hcore with ⟨t0, ht0, heq⟩
  have hdl0 : t0.deadline = some dl := (deadline_eq_of_core_eq heq).trans hdl
  have := List.all_eq_true.1 hnaive t0 ht0
  rw [hdl0] at this
  exact Option.isNone_iff_eq_none.1 this

theorem tasks_deadline_naive (ast : TaskAST)
    (hnaive : allNaiveDeadlines ast = true) :
    ∀ t ∈ ast.tasks, ∀ dl, t.deadline = some dl → dl.tz = none := by
  intro t ht dl hdl
  have := List.all_eq_true.1 hnaive t ht
  rw [hdl] at this
  exact Option.isNone_iff_eq_none.1 this

/-! ## Characterizing `check_deadlines` -/

theorem dtGt_naive {x y : DateTime} (hx : x.tz = none) (hy : y.tz = none) :
    dtGt x y = some (decide (x.wall > y.wall)) := by
  unfold dtGt
  rw [hx, hy]

theorem conflictPred_lookup_none {origDict : List (String × Task)}
    {dl : DateTime} {dep : String} (h : alookup origDict dep = none) :
    conflictPred origDict dl dep = false := by
  unfold conflictPred
  rw [h]

theorem conflictPred_ddl_none {origDict : List (String × Task)} {dl : DateTime}
    {dep : String} {td : Task} (h : alookup origDict dep = some td)
    (h2 : td.deadline = none) : conflictPred origDict dl dep = false := by
  unfold conflictPred
  rw [h]
  show (match td.deadline with
    | none => false
    | some dl2 => (dtGt dl2 dl).getD false) = false
  rw [h2]

theorem conflictPred_ddl_some {origDict : List (String × Task)} {dl : DateTime}
    {dep : String} {td : Task} {dl2 : DateTime}
    (h : alookup origDict dep = some td) (h2 : td.deadline = some dl2) :
    conflictPred origDict dl dep = (dtGt dl2 dl).getD false := by
  unfold conflictPred
  rw [h]
  show (match td.deadline with
    | none => false
    | some dl2 => (dtGt dl2 dl).getD false) = (dtGt dl2 dl).getD false
  rw [h2]

theorem conflictPred_true_iff (origDict : List (String × Task)) (dl : DateTime)
    (dep : String) :
    conflictPred origDict dl dep = true ↔
    (∃ td, alookup origDict dep = some td ∧
      ∃ dl2, td.deadline = some dl2 ∧ dtGt dl2 dl = some true) := by
  constructor
  · intro h
    cases h1 : alookup origDict dep with
    | none => rw [conflictPred_lookup_none h1] at h; cases h
    | some td =>
      cases h2 : td.deadline with
      | none => rw [conflictPred_ddl_none h1 h2] at h; cases h
      | some dl2 =>
        rw [conflictPred_ddl_some h1 h2] at h
        cases h3 : dtGt dl2 dl with
        | none => rw [h3] at h; cases h
        | some b =>
          rw [h3] at h
          cases b with
          | false => cases h
          | true => exact ⟨td, rfl, dl2, h2, h3⟩
  · rintro ⟨td, h1, dl2, h2, h3⟩
    rw [conflictPred_ddl_some h1 h2, h3]
    rfl

theorem mem_conflictingDeps {origDict : List (String × Task)} {dl : DateTime}
    {deps : List String} {i : String} (h : i ∈ conflictingDeps origDict dl deps) :
    i ∈ deps ∧ ∃ td, alookup origDict i = some td ∧
      ∃ dl2, td.deadline = some dl2 ∧ dtGt dl2 dl = some true := by
  unfold conflictingDeps at h
  obtain ⟨h1, h2⟩ := List.mem_filter.1 h
  exact ⟨h1, (conflictPred_true_iff origDict dl i).1 h2⟩

theorem conflictingDeps_eq_nil_iff (origDict : List (String × Task))
    (dl : DateTime) (deps : List String) :
    conflictingDeps origDict dl deps = [] ↔
      ∀ dep ∈ deps, ¬ (∃ td, alookup origDict dep = some td ∧
        ∃ dl2, td.deadline = some dl2 ∧ dtGt dl2 dl = some true) := by
  unfold conflictingDeps
  rw [List.filter_eq_nil_iff]
  constructor
  · intro h dep hdep hex
    exact h dep hdep ((conflictPred_true_iff origDict dl dep).2 hex)
  · intro h dep hdep hp
    exact h dep hdep ((conflictPred_true_iff origDict dl dep).1 hp)

theorem taskConflicts_none_ddl (origDict : List (String × Task)) (t : Task)
    (h : t.deadline = none) : taskConflicts origDict t = some [] := by
  unfold taskConflicts
  rw [h]

theorem conflictStep_eq {origDict : List (String × Task)} {dl : DateTime}
    {dep : String} {td : Task} {dl2 : DateTime} {b : Bool}
    (h : alookup origDict dep = some td) (h2 : td.deadline = some dl2)
    (h3 : dtGt dl2 dl = some b) :
    ∀ acc, conflictStep origDict dl acc dep =
      some (if b then acc ++ [dep] else acc) := by
  intro acc
  unfold conflictStep
  rw [h]
  show (match td.deadline with
    | none => some acc
    | some dl2 =>
      match dtGt dl2 dl with
      | none => none
      | some b => some (if b then acc ++ [dep] else acc)) = _
  rw [h2]
  show (match dtGt dl2 dl with
    | none => none
    | some b => some (if b then acc ++ [dep] else acc)) = _
  rw [h3]

theorem conflictStep_skip {origDict : List (String × Task)} {dl : DateTime}
    {dep : String} {td : Task}
    (h : alookup origDict dep = some td) (h2 : td.deadline = none) :
    ∀ acc, conflictStep origDict dl acc dep = some acc := by
  intro acc
  unfold conflictStep
  rw [h]
  show (match td.deadline with
    | none => some acc
    | some dl2 =>
      match dtGt dl2 dl with
      | none => none
      | some b => some (if b then acc ++ [dep] else acc)) = _
  rw [h2]

theorem foldlM_conflictStep (origDict : List (String × Task)) (dl : DateTime)
    (hdlnaive : dl.tz = none) :
    ∀ (deps : List String),
      (∀ dep ∈ deps, ∃ td, alookup origDict dep = some td ∧
        ∀ dl2, td.deadline = some dl2 → dl2.tz = none) →
      ∀ acc : List String,
        deps.foldlM (conflictStep origDict dl) acc =
          some (acc ++ conflictingDeps origDict dl deps) := by
  intro deps
  induction deps with
  | nil =>
    intro _ acc
    simp [conflictingDeps]
  | cons dep rest ih =>
    intro hl acc
    obtain ⟨td, htd, hnd⟩ := hl dep (List.mem_cons_self _ _)
    have hrest := ih (fun d hd => hl d (List.mem_cons_of_mem _ hd))
    show (conflictStep origDict dl acc dep).bind
      (fun acc2 => rest.foldlM (conflictStep origDict dl) acc2) = _
    cases htd2 : td.deadline with
    | none =>
      rw [conflictStep_skip htd htd2]
      show rest.foldlM (conflictStep origDict dl) acc = _
      rw [hrest acc]
      unfold conflictingDeps
      rw [List.filter_cons, if_neg (by rw [conflictPred_ddl_none htd htd2]; simp)]
    | some dl2 =>
      have hdl2n : dl2.tz = none := hnd dl2 htd2
      have hgt := dtGt_naive hdl2n hdlnaive
      rw [conflictStep_eq htd htd2 hgt]
      cases hb : decide (dl2.wall > dl.wall) with
      | false =>
        rw [hb] at hgt
        show rest.foldlM (conflictStep origDict dl)
          (if false then acc ++ [dep] else acc) = _
        rw [if_neg (by simp), hrest acc]
        unfold conflictingDeps
        rw [List.filter_cons,
          if_neg (by rw [conflictPred_ddl_some htd htd2, hgt]; simp)]
      | true =>
        rw [hb] at hgt
        show rest.foldlM (conflictStep origDict dl)
          (if true then acc ++ [dep] else acc) = _
        rw [if_pos rfl, hrest (acc ++ [dep])]
        unfold conflictingDeps
        rw [List.filter_cons,
          if_pos (by rw [conflictPred_ddl_some htd htd2, hgt]; rfl),
          List.append_assoc]
        rfl

theorem taskConflicts_some_ddl (origDict : List (String × Task)) (t : Task)
    (dl : DateTime) (hdl : t.deadline = some dl) (hdlnaive : dl.tz = none)
    (hlook : ∀ dep ∈ t.deps.after, ∃ td, alookup origDict dep = some td ∧
      ∀ dl2, td.deadline = some dl2 → dl2.tz = none) :
    taskConflicts origDict t =
      some (conflictingDeps origDict dl t.deps.after) := by
  unfold taskConflicts
  rw [hdl]
  show t.deps.after.foldlM (conflictStep origDict dl) [] = _
  rw [foldlM_conflictStep origDict dl hdlnaive t.deps.after hlook []]
  rfl

theorem taskConflicts_package (ast : TaskAST)
    (hrefs : undefinedRefsOf ast = [])
    (hnaive : allNaiveDeadlines ast = true) :
    ∀ t ∈ transformedTasks ast, ∃ c,
      taskConflicts (getTasksInDict ast.tasks) t = some c ∧
      (∀ i ∈ c, depConflict (getTasksInDict ast.tasks) t i) ∧
      (c = [] ↔ ¬ taskDirectConflict (getTasksInDict ast.tasks) t) := by
  intro t ht
  have hlook : ∀ dep ∈ t.deps.after, ∃ td,
      alookup (getTasksInDict ast.tasks) dep = some td ∧
      ∀ dl2, td.deadline = some dl2 → dl2.tz = none := by
    intro dep hdep
    have hdepids : dep ∈ getIds ast.tasks :=
      ((allGood_transformed ast hrefs t ht).1).2.1 dep hdep
    obtain ⟨td, htd⟩ := alookup_some_of_mem_ids hdepids
    refine ⟨td, htd, ?_⟩
    intro dl2 hdl2
    exact tasks_deadline_naive ast hnaive td (alookup_task_mem htd).1 dl2 hdl2
  cases hdl : t.deadline with
  | none =>
    refine ⟨[], taskConflicts_none_ddl _ _ hdl, ?_, ?_⟩
    · intro i hi
      cases hi
    · constructor
      · rintro - ⟨i, hmem, dl, hdl2, -⟩
        rw [hdl] at hdl2
        cases hdl2
      · intro _
        rfl
  | some dl =>
    have hdln : dl.tz = none := transformed_deadline_naive ast hnaive t ht dl hdl
    refine ⟨conflictingDeps (getTasksInDict ast.tasks) dl t.deps.after,
      taskConflicts_some_ddl _ _ dl hdl hdln hlook, ?_, ?_⟩
    · intro i hi
      obtain ⟨hmem, td, htd, dl2, hdl2, hgt⟩ := mem_conflictingDeps hi
      exact ⟨hmem, dl, hdl, td, htd, dl2, hdl2, hgt⟩
    · rw [conflictingDeps_eq_nil_iff]
      constructor
      · intro h
        rintro ⟨i, hmem, dlq, hdlq, td, htd, dl2, hdl2, hgt⟩
        have hde : dlq = dl := by
          rw [hdl] at hdlq
          exact (Option.some.inj hdlq).symm
        subst hde
        exact h i hmem ⟨td, htd, dl2, hdl2, hgt⟩
      · intro h dep hdep hex
        rcases hex with ⟨td, htd, dl2, hdl2, hgt⟩
        exact h ⟨dep, hdep, dl, hdl, td, htd, dl2, hdl2, hgt⟩

theorem checkDdlGo_spec (origDict : List (String × Task)) :
    ∀ (l : List Task),
      (∀ t ∈ l, ∃ c, taskConflicts origDict t = some c ∧
        (∀ i ∈ c, depConflict origDict t i) ∧
        (c = [] ↔ ¬ taskDirectConflict origDict t)) →
      (∃ r, checkDdlGo origDict l = some r)
      ∧ (checkDdlGo origDict l = some none ↔
          ∀ t ∈ l, ¬ taskDirectConflict origDict t)
      ∧ (∀ nm ids, checkDdlGo origDict l = some (some (nm, ids)) →
          ids ≠ [] ∧ ∃ t ∈ l, t.name = nm ∧ ∀ i ∈ ids, depConflict origDict t i) := by
  intro l
  induction l with
  | nil =>
    intro _
    refine ⟨⟨none, rfl⟩, ?_, ?_⟩
    · constructor
      · intro _ t ht
        cases ht
      · intro _
        rfl
    · intro nm ids h
      cases Option.some.inj h
  | cons t rest ih =>
    intro hp
    obtain ⟨c, hc, hci, hciff⟩ := hp t (List.mem_cons_self _ _)
    obtain ⟨ihr, ihiff, iherr⟩ := ih (fun tq htq => hp tq (List.mem_cons_of_mem _ htq))
    cases c with
    | nil =>
      have heq : checkDdlGo origDict (t :: rest) = checkDdlGo origDict rest := by
        show (match taskConflicts origDict t with
          | none => none
          | some [] => checkDdlGo origDict rest
          | some c => some (some (t.name, c))) = checkDdlGo origDict rest
        rw [hc]
      have hnoc : ¬ taskDirectConflict origDict t := hciff.1 rfl
      refine ⟨?_, ?_, ?_⟩
      · obtain ⟨r, hr⟩ := ihr
        exact ⟨r, heq ▸ hr⟩
      · rw [heq, ihiff]
        constructor
        · intro h tq htq
          rcases List.mem_cons.1 htq with rfl | htq2
          · exact hnoc
          · exact h tq htq2
        · intro h tq htq
          exact h tq (List.mem_cons_of_mem _ htq)
      · intro nm ids h
        obtain ⟨hne, tq, htq, hnm, hconf⟩ := iherr nm ids (heq ▸ h)
        exact ⟨hne, tq, List.mem_cons_of_mem _ htq, hnm, hconf⟩
    | cons i cr =>
      have heq : checkDdlGo origDict (t :: rest) = some (some (t.name, i :: cr)) := by
        show (match taskConflicts origDict t with
          | none => none
          | some [] => checkDdlGo origDict rest
          | some c => some (some (t.name, c))) = some (some (t.name, i :: cr))
        rw [hc]
      have hconf : taskDirectConflict origDict t := by
        by_contra hn
        cases hciff.2 hn
      refine ⟨⟨some (t.name, i :: cr), heq⟩, ?_, ?_⟩
      · rw [heq]
        constructor
        · intro h
          cases Option.some.inj h
        · intro h
          exact absurd hconf (h t (List.mem_cons_self _ _))
      · intro nm ids h
        rw [heq] at h
        obtain hpair := Option.some.inj (Option.some.inj h)
        have hnm : t.name = nm := congrArg Prod.fst hpair
        have hid : i :: cr = ids := congrArg Prod.snd hpair
        refine ⟨?_, t, List.mem_cons_self _ _, hnm, ?_⟩
        · rw [← hid]
          intro hnil
          cases hnil
        · intro j hj
          rw [← hid] at hj
          exact hci j hj

/-! ## Frame lemmas: the heap transforms write only to freshly copied
addresses -/

theorem take_listModifyIdx_of_le {f : Task → Task} :
    ∀ (l : List Task) (j n : Nat), n ≤ j →
      (listModifyIdx f j l).take n = l.take n := by
  intro l
  induction l with
  | nil => intro j n hn; cases j <;> rfl
  | cons x xs ih =>
    intro j n hn
    cases j with
    | zero =>
      have : n = 0 := Nat.le_zero.1 hn
      subst this
      rfl
    | succ m =>
      cases n with
      | zero => rfl
      | succ k =>
        show x :: (listModifyIdx f m xs).take k = x :: xs.take k
        rw [ih m k (Nat.le_of_succ_le_succ hn)]

theorem writeAt_take {h : Heap} {j n : Nat} (hn : n ≤ j) (f : Task → Task) :
    (writeAt h j f).objs.take n = h.objs.take n :=
  take_listModifyIdx_of_le h.objs j n hn

theorem deepcopy_take (h : Heap) (refs : List Nat) {n : Nat}
    (hn : n ≤ h.objs.length) :
    (deepcopyRefs h refs).1.objs.take n = h.objs.take n := by
  show (h.objs ++ refs.map (heapGet h)).take n = h.objs.take n
  rw [List.take_append_of_le_length hn]

theorem deepcopy_refs_ge (h : Heap) (refs : List Nat) :
    ∀ j ∈ (deepcopyRefs h refs).2, h.objs.length ≤ j := by
  intro j hj
  rcases List.mem_map.1 hj with ⟨i, _, rfl⟩
  exact Nat.le_add_right _ _

theorem findLastRef_mem {h : Heap} {refs : List Nat} {tid : String} {j : Nat}
    (hj : findLastRef h refs tid = some j) : j ∈ refs := by
  unfold findLastRef at hj
  have hmem : j ∈ (refs.filter (fun r => (heapGet h r).id = tid)).getLast? :=
    Option.mem_def.2 hj
  obtain ⟨hne, heq⟩ := List.mem_getLast?_eq_getLast hmem
  exact (List.mem_filter.1 (heq ▸ List.getLast_mem hne)).1

theorem foldl_take {α : Type} (n : Nat) (step : Heap → α → Heap)
    (hstep : ∀ h a, (step h a).objs.take n = h.objs.take n) :
    ∀ (l : List α) (h : Heap), (l.foldl step h).objs.take n = h.objs.take n := by
  intro l
  induction l with
  | nil => intro h; rfl
  | cons a as ih =>
    intro h
    rw [List.foldl_cons, ih, hstep]

theorem foldl_take_pair {α : Type} (n : Nat)
    (step : Heap × Bool → α → Heap × Bool)
    (hstep : ∀ hb a, (step hb a).1.objs.take n = hb.1.objs.take n) :
    ∀ (l : List α) (hb : Heap × Bool),
      (l.foldl step hb).1.objs.take n = hb.1.objs.take n := by
  intro l
  induction l with
  | nil => intro hb; rfl
  | cons a as ih =>
    intro hb
    rw [List.foldl_cons, ih, hstep]

theorem invertOneS_take {n : Nat} {refs : List Nat}
    (hrefs : ∀ j ∈ refs, n ≤ j) (h : Heap) (r : Nat) (hr : r ∈ refs) :
    (invertOneS refs h r).objs.take n = h.objs.take n := by
  unfold invertOneS
  rw [writeAt_take (hrefs r hr)]
  apply foldl_take
  intro hh tgt
  cases hf : findLastRef hh refs tgt with
  | none => rfl
  | some j => exact writeAt_take (hrefs j (findLastRef_mem hf)) _

theorem invertS_take {n : Nat} {refs : List Nat}
    (hrefs : ∀ j ∈ refs, n ≤ j) (h : Heap) :
    (invertS refs h).objs.take n = h.objs.take n := by
  unfold invertS
  have : ∀ (l : List Nat), (∀ j ∈ l, j ∈ refs) → ∀ hh : Heap,
      (l.foldl (invertOneS refs) hh).objs.take n = hh.objs.take n := by
    intro l
    induction l with
    | nil => intro _ hh; rfl
    | cons r rs ih =>
      intro hl hh
      rw [List.foldl_cons, ih (fun j hj => hl j (List.mem_cons_of_mem _ hj)),
        invertOneS_take hrefs hh r (hl r (List.mem_cons_self _ _))]
  exact this refs (fun j hj => hj) h

theorem expandS_take {n : Nat} {refs : List Nat}
    (hrefs : ∀ j ∈ refs, n ≤ j) (h : Heap) :
    (refs.foldl (expandOneS refs) h).objs.take n = h.objs.take n := by
  have : ∀ (l : List Nat), (∀ j ∈ l, j ∈ refs) → ∀ hh : Heap,
      (l.foldl (expandOneS refs) hh).objs.take n = hh.objs.take n := by
    intro l
    induction l with
    | nil => intro _ hh; rfl
    | cons r rs ih =>
      intro hl hh
      rw [List.foldl_cons, ih (fun j hj => hl j (List.mem_cons_of_mem _ hj))]
      exact writeAt_take (hrefs r (hl r (List.mem_cons_self _ _))) _
  exact this refs (fun j hj => hj) h

theorem normalizeS_take (h : Heap) (refs : List Nat) :
    (normalizeS h refs).1.objs.take h.objs.length = h.objs := by
  unfold normalizeS
  rw [expandS_take (deepcopy_refs_ge h refs),
    invertS_take (deepcopy_refs_ge h refs),
    deepcopy_take h refs (Nat.le_refl _), List.take_length]

theorem updateTimezoneS_take {n : Nat} {refs : List Nat}
    (hrefs : ∀ j ∈ refs, n ≤ j) (d : Int) (h : Heap) (tid : String) :
    (updateTimezoneS d refs h tid).objs.take n = h.objs.take n := by
  unfold updateTimezoneS
  cases hf : findLastRef h refs tid with
  | none => rfl
  | some j => exact writeAt_take (hrefs j (findLastRef_mem hf)) _

theorem updateDdlRefS_take {n : Nat} {refs : List Nat}
    (hrefs : ∀ j ∈ refs, n ≤ j) (dl : DateTime) (h : Heap) (sid : String) :
    (updateDdlRefS refs dl h sid).1.objs.take n = h.objs.take n := by
  unfold updateDdlRefS
  cases hf : findLastRef h refs sid with
  | none => rfl
  | some j =>
    show ((match updateDdlTask dl (heapGet h j) with
      | none => (h, false)
      | some t2 => (writeAt h j (fun _ => t2), true)) :
        Heap × Bool).1.objs.take n = h.objs.take n
    cases hu : updateDdlTask dl (heapGet h j) with
    | none => rfl
    | some t2 => exact writeAt_take (hrefs j (findLastRef_mem hf)) _

theorem propogateDdlS_take {n : Nat} {refs : List Nat}
    (hrefs : ∀ j ∈ refs, n ≤ j) (h : Heap) (tid : String) :
    (propogateDdlS refs h tid).1.objs.take n = h.objs.take n := by
  unfold propogateDdlS
  cases hf : findLastRef h refs tid with
  | none => rfl
  | some j =>
    show ((match (heapGet h j).deadline with
      | none => (h, true)
      | some dl =>
        if (heapGet h j).isGoal then
          (heapGet h j).subtasksOf.foldl
            (fun acc s => if acc.2 then updateDdlRefS refs dl acc.1 s else acc)
            (h, true)
        else (h, true)) : Heap × Bool).1.objs.take n = h.objs.take n
    cases hd : (heapGet h j).deadline with
    | none => rfl
    | some dl =>
      show ((if (heapGet h j).isGoal then
          (heapGet h j).subtasksOf.foldl
            (fun acc s => if acc.2 then updateDdlRefS refs dl acc.1 s else acc)
            (h, true)
        else (h, true)) : Heap × Bool).1.objs.take n = h.objs.take n
      by_cases hg : (heapGet h j).isGoal = true
      · rw [if_pos hg]
        apply foldl_take_pair
        intro hb s
        by_cases hs : hb.2 = true
        · rw [if_pos hs]
          exact updateDdlRefS_take hrefs dl hb.1 s
        · rw [if_neg hs]
      · rw [if_neg hg]

theorem propogatePriorityS_take {n : Nat} {refs : List Nat}
    (hrefs : ∀ j ∈ refs, n ≤ j) (h : Heap) (tid : String) :
    (propogatePriorityS refs h tid).objs.take n = h.objs.take n := by
  unfold propogatePriorityS
  cases hf : findLastRef h refs tid with
  | none => rfl
  | some j =>
    show (if (heapGet h j).isGoal then
        (heapGet h j).subtasksOf.foldl
          (fun hh s =>
            match findLastRef hh refs s with
            | none => hh
            | some j2 =>
              writeAt hh j2
                (fun x => { x with priority := x.priority * (heapGet h j).priority }))
          h
      else h).objs.take n = h.objs.take n
    by_cases hg : (heapGet h j).isGoal = true
    · rw [if_pos hg]
      apply foldl_take
      intro hh s
      cases hf2 : findLastRef hh refs s with
      | none => rfl
      | some j2 => exact writeAt_take (hrefs j2 (findLastRef_mem hf2)) _
    · rw [if_neg hg]

theorem propogateS_take (h : Heap) (refs : List Nat) (cfg : CascadeConfig) :
    (propogateS h refs cfg).1.objs.take h.objs.length = h.objs := by
  unfold propogateS
  cases ht : (extractAST h refs cfg).topoSort with
  | none => exact List.take_length _
  | some order =>
    have hstep : ∀ (hb : Heap × Bool) (tid : String),
        ((if hb.2 then
            let h1 := updateTimezoneS cfg.defaultTz (deepcopyRefs h refs).2 hb.1 tid
            let r2 := propogateDdlS (deepcopyRefs h refs).2 h1 tid
            if r2.2 then (propogatePriorityS (deepcopyRefs h refs).2 r2.1 tid, true)
            else r2
          else hb) : Heap × Bool).1.objs.take h.objs.length =
          hb.1.objs.take h.objs.length := by
      intro hb tid
      by_cases hb2 : hb.2 = true
      · rw [if_pos hb2]
        by_cases hr2 : (propogateDdlS (deepcopyRefs h refs).2
            (updateTimezoneS cfg.defaultTz (deepcopyRefs h refs).2 hb.1 tid) tid).2 = true
        · rw [if_pos hr2]
          show (propogatePriorityS _ _ _).objs.take _ = _
          rw [propogatePriorityS_take (deepcopy_refs_ge h refs),
            propogateDdlS_take (deepcopy_refs_ge h refs),
            updateTimezoneS_take (deepcopy_refs_ge h refs)]
        · rw [if_neg hr2]
          show (propogateDdlS _ _ _).1.objs.take _ = _
          rw [propogateDdlS_take (deepcopy_refs_ge h refs),
            updateTimezoneS_take (deepcopy_refs_ge h refs)]
      · rw [if_neg hb2]
    rw [foldl_take_pair h.objs.length _ hstep order.reverse
      ((deepcopyRefs h refs).1, true)]
    show (deepcopyRefs h refs).1.objs.take h.objs.length = h.objs
    rw [deepcopy_take h refs (Nat.le_refl _), List.take_length]

theorem heapGet_of_take_eq {h0 h1 : Heap} {n r : Nat}
    (hpre : h1.objs.take n = h0.objs.take n) (hr : r < n) :
    heapGet h1 r = heapGet h0 r := by
  unfold heapGet
  unfold List.getD
  rw [← List.get?_take hr, hpre, List.get?_take hr]

/-! ## Soundness of the cycle check (towards claim C5) -/

theorem visitOut_none_eq (d : List (String × Task)) (ids safe stack : List String)
    (tid : String) : VisitOut d ids safe stack tid none = False := rfl

theorem visitOut_error_eq (d : List (String × Task)) (ids safe stack : List String)
    (tid : String) (e : List String) :
    VisitOut d ids safe stack tid (some (Except.error e)) = CyclePath d e := rfl

theorem visitOut_ok_eq (d : List (String × Task)) (ids safe stack : List String)
    (tid : String) (safe1 : List String) :
    VisitOut d ids safe stack tid (some (Except.ok safe1)) =
      ((∃ l, safe1 = safe ++ l) ∧ SafeInv d safe1 ∧ (∀ s ∈ safe1, s ∈ ids) ∧
        tid ∈ safe1 ∧ (∀ x ∈ safe1, x ∈ safe ∨ x ∉ stack)) := rfl

theorem depsOut_none_eq (d : List (String × Task)) (ids safe stack : List String)
    (L : List String) : DepsOut d ids safe stack L none = False := rfl

theorem depsOut_error_eq (d : List (String × Task)) (ids safe stack : List String)
    (L : List String) (e : List String) :
    DepsOut d ids safe stack L (some (Except.error e)) = CyclePath d e := rfl

theorem depsOut_ok_eq (d : List (String × Task)) (ids safe stack : List String)
    (L : List String) (safe1 : List String) :
    DepsOut d ids safe stack L (some (Except.ok safe1)) =
      ((∃ l, safe1 = safe ++ l) ∧ SafeInv d safe1 ∧ (∀ s ∈ safe1, s ∈ ids) ∧
        (∀ dep ∈ L, dep ∈ safe1) ∧ (∀ x ∈ safe1, x ∈ safe ∨ x ∉ stack)) := rfl

theorem loopOut_none_eq (d : List (String × Task)) (ids safe : List String)
    (L : List Task) : LoopOut d ids safe L none = False := rfl

theorem loopOut_error_eq (d : List (String × Task)) (ids safe : List String)
    (L : List Task) (e : List String) :
    LoopOut d ids safe L (some (Except.error e)) = CyclePath d e := rfl

theorem loopOut_ok_eq (d : List (String × Task)) (ids safe : List String)
    (L : List Task) (safeF : List String) :
    LoopOut d ids safe L (some (Except.ok safeF)) =
      ((∃ l, safeF = safe ++ l) ∧ SafeInv d safeF ∧ (∀ s ∈ safeF, s ∈ ids) ∧
        ∀ t ∈ L, t.id ∈ safeF) := rfl

theorem chain'_concat_of_link {R : String → String → Prop} {l : List String}
    {a : String} (hc : List.Chain' R l)
    (hl : ∀ x, l.getLast? = some x → R x a) : List.Chain' R (l ++ [a]) := by
  rw [List.chain'_append]
  refine ⟨hc, List.chain'_singleton a, ?_⟩
  intro x hx y hy
  have hy2 : a = y := by simpa using hy
  subst hy2
  exact hl x (Option.mem_def.1 hx)

theorem chain_getLast_transGen {R : String → String → Prop} :
    ∀ (l : List String) (a b : String), List.Chain R a l →
      l.getLast? = some b → Relation.TransGen R a b := by
  intro l
  induction l with
  | nil =>
    intro a b _ hb
    simp at hb
  | cons c rest ih =>
    intro a b hchain hb
    rw [List.chain_cons] at hchain
    obtain ⟨hac, hrest⟩ := hchain
    cases rest with
    | nil =>
      have hcb : c = b := by simpa using hb
      exact hcb ▸ Relation.TransGen.single hac
    | cons r rs =>
      have hb2 : (r :: rs).getLast? = some b := by
        rw [← List.getLast?_cons_cons]
        exact hb
      exact Relation.TransGen.head hac (ih c b hrest hb2)

/-- A reported cycle path witnesses a cycle of the graph. -/
theorem cyclePath_cyclic {d : List (String × Task)} {e : List String}
    (h : CyclePath d e) : Cyclic d := by
  obtain ⟨hchain, l1, x, l2, rfl⟩ := h
  have h2 : List.Chain' (GEdge d) (x :: (l2 ++ [x])) :=
    (List.chain'_append.1 hchain).2.1
  have h3 : List.Chain (GEdge d) x (l2 ++ [x]) := h2
  exact ⟨x, chain_getLast_transGen (l2 ++ [x]) x x h3 (List.getLast?_concat l2)⟩

/-- Appending a settled node to a reverse-topological `safe` list keeps it
reverse-topological, provided all its dependencies were already settled. -/
theorem safeInv_concat {d : List (String × Task)} {safe1 : List String}
    {tid : String} {t : Task} (hS : SafeInv d safe1) (hnot : tid ∉ safe1)
    (halook : alookup d tid = some t)
    (hdeps : ∀ v ∈ t.deps.after, v ∈ safe1) :
    SafeInv d (safe1 ++ [tid]) := by
  intro u hu td htd v hv
  rcases List.mem_append.1 hu with hu1 | hu2
  · obtain ⟨hvm, hlt⟩ := hS u hu1 td htd v hv
    refine ⟨List.mem_append_left _ hvm, ?_⟩
    rw [List.indexOf_append_of_mem hvm, List.indexOf_append_of_mem hu1]
    exact hlt
  · have hu3 : u = tid := by simpa using hu2
    subst hu3
    rw [halook] at htd
    have htdt : td = t := (Option.some.inj htd).symm
    subst htdt
    have hvm : v ∈ safe1 := hdeps v hv
    refine ⟨List.mem_append_left _ hvm, ?_⟩
    rw [List.indexOf_append_of_mem hvm, List.indexOf_append_of_not_mem hnot]
    have hlt := List.indexOf_lt_length.2 hvm
    simp only [List.indexOf_cons_self]
    omega

/-- A duplicate-free stack of known ids is no longer than the id list. -/
theorem stack_length_le {stack ids : List String} (hnd : stack.Nodup)
    (hsub : ∀ s ∈ stack, s ∈ ids) : stack.length ≤ ids.length :=
  (List.subperm_of_subset hnd hsub).length_le

/-- Along edges of the graph, membership in a reverse-topological `safe`
list propagates and the position strictly decreases. -/
theorem transGen_mem_rank {d : List (String × Task)} {safeF : List String}
    (hS : SafeInv d safeF) :
    ∀ u v, Relation.TransGen (GEdge d) u v → u ∈ safeF →
      v ∈ safeF ∧ safeF.indexOf v < safeF.indexOf u := by
  intro u v htg
  induction htg with
  | single h =>
    intro hu
    obtain ⟨tu, halk, hmemdep⟩ := h
    exact hS u hu tu halk _ hmemdep
  | tail htg h ih =>
    intro hu
    obtain ⟨hb, hblt⟩ := ih hu
    obtain ⟨tb, halk, hmemdep⟩ := h
    obtain ⟨hv, hvlt⟩ := hS _ hb tb halk _ hmemdep
    exact ⟨hv, Nat.lt_trans hvlt hblt⟩

/-! ### Duplicate-free id lists make the dict faithful -/

theorem filter_id_singleton {ts : List Task} (hnd : (getIds ts).Nodup)
    {t : Task} (ht : t ∈ ts) :
    ts.filter (fun x => x.id = t.id) = [t] := by
  induction ts with
  | nil => cases ht
  | cons a rest ih =>
    have hids : getIds (a :: rest) = a.id :: getIds rest := rfl
    rw [hids] at hnd
    have hna : a.id ∉ getIds rest := (List.nodup_cons.1 hnd).1
    have hnd2 : (getIds rest).Nodup := (List.nodup_cons.1 hnd).2
    rcases List.mem_cons.1 ht with rfl | htr
    · have hrest : rest.filter (fun x => x.id = t.id) = [] := by
        rw [List.filter_eq_nil_iff]
        intro x hx hxe
        have hxe2 : x.id = t.id := of_decide_eq_true hxe
        exact hna (hxe2 ▸ List.mem_map_of_mem Task.id hx)
      simp [List.filter_cons, hrest]
    · have hne : ¬ (a.id = t.id) :=
        fun he => hna (he ▸ List.mem_map_of_mem Task.id htr)
      rw [List.filter_cons, if_neg (by simpa using hne)]
      exact ih hnd2 htr

/-- With duplicate-free ids every task is its own dict entry. -/
theorem alookup_self_of_nodup {ts : List Task} (hnd : (getIds ts).Nodup)
    {t : Task} (ht : t ∈ ts) :
    alookup (getTasksInDict ts) t.id = some t := by
  rw [alookup_getTasksInDict, filter_id_singleton hnd ht]
  rfl

/-- With duplicate-free ids the dict has one entry per task. -/
theorem getTasksInDict_length_of_nodup :
    ∀ {ts : List Task}, (getIds ts).Nodup →
      (getTasksInDict ts).length = ts.length := by
  intro ts
  induction ts using List.reverseRecOn with
  | nil => intro _; rfl
  | append_singleton ts t ih =>
    intro hnd
    have hids : getIds (ts ++ [t]) = getIds ts ++ [t.id] := by
      simp [getIds]
    rw [hids] at hnd
    obtain ⟨hnd1, _, hdisj⟩ := List.nodup_append.1 hnd
    have hnotin : t.id ∉ getIds ts :=
      fun hmem => hdisj hmem (List.mem_singleton.2 rfl)
    have hany : (getTasksInDict ts).any (fun kv => kv.1 = t.id) = false := by
      rw [List.any_eq_false]
      intro kv hkv
      simp only [decide_eq_true_eq]
      intro heq
      obtain ⟨h1, h2⟩ := getTasksInDict_entry ts kv hkv
      have h3 : kv.2.id = t.id := by rw [← h1, heq]
      exact hnotin (h3 ▸ List.mem_map_of_mem Task.id h2)
    rw [getTasksInDict_concat]
    unfold upsert
    rw [hany, if_neg Bool.false_ne_true]
    simp [ih hnd1]

theorem getIds_eq_of_core {ts1 ts2 : List Task}
    (h : ts1.map Task.core = ts2.map Task.core) : getIds ts1 = getIds ts2 := by
  have h1 : getIds ts1 = (ts1.map Task.core).map (fun c => c.1) := by
    rw [List.map_map]; rfl
  have h2 : getIds ts2 = (ts2.map Task.core).map (fun c => c.1) := by
    rw [List.map_map]; rfl
  rw [h1, h2, h]

/-- The working copy the cycle check walks carries the original ids. -/
theorem getIds_transformed_inject (ast : TaskAST) :
    getIds (transformedTasks (injectImplicitDeps ast)) = getIds ast.tasks :=
  getIds_eq_of_core (by rw [core_transformedTasks, core_injectImplicitDeps])

/-! ### Reference closure survives implicit-dependency injection -/

theorem taskGood_unionAfter {ids S : List String}
    (hS : ∀ v ∈ S, v ∈ ids) {t : Task} (h : TaskGood ids t) :
    TaskGood ids
      { t with deps := { t.deps with after := setUnion t.deps.after S } } := by
  obtain ⟨⟨hb, ha, hs⟩, hid⟩ := h
  refine ⟨⟨hb, ?_, hs⟩, hid⟩
  intro r hr
  rcases mem_setUnion.1 hr with h1 | h1
  · exact ha r h1
  · exact hS r h1

theorem allGood_foldl_idxs {ids : List String} {g : Task}
    (hg : ∀ v ∈ g.subtasksOf, v ∈ ids) :
    ∀ (idxs : List Nat) {ts : List Task}, AllGood ids ts →
      AllGood ids (idxs.foldl (fun acc i =>
        if i = 0 then acc
        else modifyLast (g.subtasksOf.getD i "")
          (fun x => { x with deps := { x.deps with
            after := setUnion x.deps.after (g.subtasksOf.take i) } }) acc) ts) := by
  intro idxs
  induction idxs with
  | nil => intro ts h; exact h
  | cons i is ih =>
    intro ts h
    rw [List.foldl_cons]
    by_cases h0 : i = 0
    · rw [if_pos h0]
      exact ih h
    · rw [if_neg h0]
      have hsub : ∀ v ∈ g.subtasksOf.take i, v ∈ ids :=
        fun v hv => hg v (List.take_subset _ _ hv)
      exact ih (allGood_modifyLast (fun x hx => taskGood_unionAfter hsub hx) h)

theorem allGood_injectGoalDeps {ids : List String} {g : Task}
    (hg : ∀ v ∈ g.subtasksOf, v ∈ ids) {ts : List Task} (h : AllGood ids ts) :
    AllGood ids (injectGoalDeps g ts) := by
  unfold injectGoalDeps
  by_cases hi : g.implicitOrder = true
  · rw [if_pos hi]
    exact allGood_foldl_idxs hg _ h
  · rw [if_neg hi]
    exact h

theorem allGood_foldl_inject {ids : List String} :
    ∀ (gs : List Task), (∀ g ∈ gs, ∀ v ∈ g.subtasksOf, v ∈ ids) →
      ∀ {ts : List Task}, AllGood ids ts →
        AllGood ids (gs.foldl (fun acc g => injectGoalDeps g acc) ts) := by
  intro gs
  induction gs with
  | nil => intro _ ts h; exact h
  | cons g rest ih =>
    intro hgs ts h
    rw [List.foldl_cons]
    exact ih (fun g2 hg2 => hgs g2 (List.mem_cons_of_mem _ hg2))
      (allGood_injectGoalDeps (hgs g (List.mem_cons_self _ _)) h)

theorem allGood_injectImplicitDeps (ast : TaskAST)
    (h : AllGood (getIds ast.tasks) ast.tasks) :
    AllGood (getIds ast.tasks) (injectImplicitDeps ast).tasks := by
  unfold injectImplicitDeps
  apply allGood_foldl_inject _ _ h
  intro g hg v hv
  have hgm : g ∈ ast.tasks := List.mem_of_mem_filter hg
  exact ((h g hgm).1).2.2 v hv

/-- The list the cycle check iterates over is reference-closed over the
original ids whenever `check_refs` accepted. -/
theorem allGood_transformed_inject (ast : TaskAST)
    (h : undefinedRefsOf ast = []) :
    AllGood (getIds ast.tasks) (transformedTasks (injectImplicitDeps ast)) :=
  allGood_convertGoalToDeps (allGood_invertDependencies
    (allGood_injectImplicitDeps ast (allGood_start ast h)))

/-- Soundness of the dependency loop, given soundness of the visit it calls
(the recursion of `check_deps_graph` unfolded one level). -/
theorem dfsDepsF_sound (d : List (String × Task)) (ids : List String)
    (hid : ∀ k v, alookup d k = some v → v.id = k)
    (hlook : ∀ k, k ∈ ids → ∃ v, alookup d k = some v)
    (fuel : Nat)
    (IH : ∀ t safe stack, alookup d t.id = some t → SafeInv d safe →
      (∀ s ∈ safe, s ∈ ids) → stack.Nodup → (∀ s ∈ stack, s ∈ ids) →
      List.Chain' (GEdge d) stack →
      (∀ x, stack.getLast? = some x → GEdge d x t.id) →
      ids.length + 1 ≤ fuel + stack.length →
      VisitOut d ids safe stack t.id (dfsVisit d fuel t safe stack)) :
    ∀ (L safe stack : List String), (∀ dep ∈ L, dep ∈ ids) → SafeInv d safe →
      (∀ s ∈ safe, s ∈ ids) → stack.Nodup → (∀ s ∈ stack, s ∈ ids) →
      List.Chain' (GEdge d) stack →
      (∀ dep ∈ L, ∀ x, stack.getLast? = some x → GEdge d x dep) →
      ids.length + 1 ≤ fuel + stack.length →
      DepsOut d ids safe stack L
        (dfsDepsF d (dfsVisit d fuel) L safe stack) := by
  intro L
  induction L with
  | nil =>
    intro safe stack hL hS hsids hnd hstids hch hlink hfuel
    rw [show dfsDepsF d (dfsVisit d fuel) [] safe stack =
      some (Except.ok safe) from rfl, depsOut_ok_eq]
    exact ⟨⟨[], (List.append_nil safe).symm⟩, hS, hsids,
      fun dep hdep => absurd hdep (List.not_mem_nil dep),
      fun x hx => Or.inl hx⟩
  | cons dep rest ih =>
    intro safe stack hL hS hsids hnd hstids hch hlink hfuel
    obtain ⟨td, htd⟩ := hlook dep (hL dep (List.mem_cons_self _ _))
    have hidd : td.id = dep := hid dep td htd
    have halook2 : alookup d td.id = some td := by rw [hidd]; exact htd
    have hstep : dfsDepsF d (dfsVisit d fuel) (dep :: rest) safe stack =
        match dfsVisit d fuel td safe stack with
        | none => none
        | some (Except.error e) => some (Except.error e)
        | some (Except.ok safe1) =>
            dfsDepsF d (dfsVisit d fuel) rest safe1 stack := by
      show (match alookup d dep with
        | none => none
        | some td2 =>
          match dfsVisit d fuel td2 safe stack with
          | none => none
          | some (Except.error e) => some (Except.error e)
          | some (Except.ok safe1) =>
              dfsDepsF d (dfsVisit d fuel) rest safe1 stack) = _
      rw [htd]
    rw [hstep]
    have hv := IH td safe stack halook2 hS hsids hnd hstids hch
      (fun x hx => hidd ▸ hlink dep (List.mem_cons_self _ _) x hx) hfuel
    cases hres : dfsVisit d fuel td safe stack with
    | none =>
      rw [hres, visitOut_none_eq] at hv
      exact hv.elim
    | some r =>
      cases r with
      | error e =>
        rw [hres, visitOut_error_eq] at hv
        show DepsOut d ids safe stack (dep :: rest) (some (Except.error e))
        rw [depsOut_error_eq]
        exact hv
      | ok safe1 =>
        rw [hres, visitOut_ok_eq] at hv
        obtain ⟨⟨l1, hgrow1⟩, hS1, hsids1, hmem1, hesc1⟩ := hv
        show DepsOut d ids safe stack (dep :: rest)
          (dfsDepsF d (dfsVisit d fuel) rest safe1 stack)
        have hrec := ih safe1 stack
          (fun dp hdp => hL dp (List.mem_cons_of_mem _ hdp)) hS1 hsids1 hnd
          hstids hch
          (fun dp hdp x hx => hlink dp (List.mem_cons_of_mem _ hdp) x hx) hfuel
        cases hres2 : dfsDepsF d (dfsVisit d fuel) rest safe1 stack with
        | none =>
          rw [hres2, depsOut_none_eq] at hrec
          exact hrec.elim
        | some r2 =>
          cases r2 with
          | error e =>
            rw [hres2, depsOut_error_eq] at hrec
            show DepsOut d ids safe stack (dep :: rest) (some (Except.error e))
            rw [depsOut_error_eq]
            exact hrec
          | ok safe2 =>
            rw [hres2, depsOut_ok_eq] at hrec
            obtain ⟨⟨l2, hgrow2⟩, hS2, hsids2, hdeps2, hesc2⟩ := hrec
            show DepsOut d ids safe stack (dep :: rest)
              (some (Except.ok safe2))
            rw [depsOut_ok_eq]
            refine ⟨⟨l1 ++ l2, by rw [hgrow2, hgrow1, List.append_assoc]⟩,
              hS2, hsids2, ?_, ?_⟩
            · intro dp hdp
              rcases List.mem_cons.1 hdp with rfl | hdp2
              · rw [hgrow2]
                exact List.mem_append_left _ (hidd ▸ hmem1)
              · exact hdeps2 dp hdp2
            · intro x hx
              rcases hesc2 x hx with hx1 | hx2
              · exact hesc1 x hx1
              · exact Or.inr hx2

/-- Soundness of one DFS visit: with enough fuel it cannot crash, an `ok`
extends the reverse-topological `safe` list with the visited id, and an
error reports a genuine cycle path. -/
theorem dfsVisit_sound (d : List (String × Task)) (ids : List String)
    (hid : ∀ k v, alookup d k = some v → v.id = k)
    (hcl : ∀ k v, alookup d k = some v →
      (∀ w ∈ v.deps.after, w ∈ ids) ∧ v.id ∈ ids)
    (hlook : ∀ k, k ∈ ids → ∃ v, alookup d k = some v) :
    ∀ (fuel : Nat) (t : Task) (safe stack : List String),
      alookup d t.id = some t → SafeInv d safe → (∀ s ∈ safe, s ∈ ids) →
      stack.Nodup → (∀ s ∈ stack, s ∈ ids) →
      List.Chain' (GEdge d) stack →
      (∀ x, stack.getLast? = some x → GEdge d x t.id) →
      ids.length + 1 ≤ fuel + stack.length →
      VisitOut d ids safe stack t.id (dfsVisit d fuel t safe stack) := by
  intro fuel
  induction fuel with
  | zero =>
    intro t safe stack halook hS hsids hnd hstids hch hlink hfuel
    have hlen := stack_length_le hnd hstids
    exact absurd hfuel (by omega)
  | succ f ihf =>
    intro t safe stack halook hS hsids hnd hstids hch hlink hfuel
    by_cases h1 : t.id ∈ safe
    · have hstep : dfsVisit d (f + 1) t safe stack = some (Except.ok safe) := by
        unfold dfsVisit
        rw [if_pos h1]
      rw [hstep, visitOut_ok_eq]
      exact ⟨⟨[], (List.append_nil safe).symm⟩, hS, hsids, h1,
        fun x hx => Or.inl hx⟩
    · by_cases h2 : t.id ∈ stack
      · have hstep : dfsVisit d (f + 1) t safe stack =
            some (Except.error (stack ++ [t.id])) := by
          unfold dfsVisit
          rw [if_neg h1, if_pos h2]
        rw [hstep, visitOut_error_eq]
        constructor
        · exact chain'_concat_of_link hch hlink
        · obtain ⟨l1, l2, hdec⟩ := List.append_of_mem h2
          refine ⟨l1, t.id, l2, ?_⟩
          rw [hdec, List.append_assoc, List.cons_append]
      · have hstep : dfsVisit d (f + 1) t safe stack =
            match dfsDepsF d (dfsVisit d f) t.deps.after safe
              (stack ++ [t.id]) with
            | none => none
            | some (Except.error e) => some (Except.error e)
            | some (Except.ok safe1) => some (Except.ok (safe1 ++ [t.id])) := by
          unfold dfsVisit
          rw [if_neg h1, if_neg h2]
        rw [hstep]
        have htid_ids : t.id ∈ ids := (hcl t.id t halook).2
        have hdeps_ids : ∀ w ∈ t.deps.after, w ∈ ids := (hcl t.id t halook).1
        have hnd2 : (stack ++ [t.id]).Nodup := by
          rw [List.nodup_append]
          refine ⟨hnd, List.nodup_singleton _, ?_⟩
          intro x hx hx2
          have hxe : x = t.id := by simpa using hx2
          exact h2 (hxe ▸ hx)
        have hstids2 : ∀ s ∈ stack ++ [t.id], s ∈ ids := by
          intro s hs
          rcases List.mem_append.1 hs with hs1 | hs2
          · exact hstids s hs1
          · have hse : s = t.id := by simpa using hs2
            exact hse ▸ htid_ids
        have hch2 : List.Chain' (GEdge d) (stack ++ [t.id]) :=
          chain'_concat_of_link hch hlink
        have hlink2 : ∀ dep ∈ t.deps.after, ∀ x,
            (stack ++ [t.id]).getLast? = some x → GEdge d x dep := by
          intro dep hdep x hx
          rw [List.getLast?_concat] at hx
          have hxe : x = t.id := (Option.some.inj hx).symm
          subst hxe
          exact ⟨t, halook, hdep⟩
        have hfuel2 : ids.length + 1 ≤ f + (stack ++ [t.id]).length := by
          have hlen2 : (stack ++ [t.id]).length = stack.length + 1 := by simp
          omega
        have hD := dfsDepsF_sound d ids hid hlook f ihf t.deps.after safe
          (stack ++ [t.id]) hdeps_ids hS hsids hnd2 hstids2 hch2 hlink2 hfuel2
        cases hres : dfsDepsF d (dfsVisit d f) t.deps.after safe
            (stack ++ [t.id]) with
        | none =>
          rw [hres, depsOut_none_eq] at hD
          exact hD.elim
        | some r =>
          cases r with
          | error e =>
            rw [hres, depsOut_error_eq] at hD
            show VisitOut d ids safe stack t.id (some (Except.error e))
            rw [visitOut_error_eq]
            exact hD
          | ok safe1 =>
            rw [hres, depsOut_ok_eq] at hD
            obtain ⟨⟨l1, hgrow⟩, hS1, hsids1, hdeps1, hesc1⟩ := hD
            have htid_not : t.id ∉ safe1 := by
              intro hmem
              rcases hesc1 t.id hmem with hc | hc
              · exact h1 hc
              · exact hc (List.mem_append_right _ (List.mem_singleton.2 rfl))
            show VisitOut d ids safe stack t.id
              (some (Except.ok (safe1 ++ [t.id])))
            rw [visitOut_ok_eq]
            refine ⟨⟨l1 ++ [t.id], by rw [hgrow, List.append_assoc]⟩,
              safeInv_concat hS1 htid_not halook hdeps1, ?_, ?_, ?_⟩
            · intro s hs
              rcases List.mem_append.1 hs with hs1 | hs2
              · exact hsids1 s hs1
              · have hse : s = t.id := by simpa using hs2
                exact hse ▸ htid_ids
            · exact List.mem_append_right _ (List.mem_singleton.2 rfl)
            · intro x hx
              rcases List.mem_append.1 hx with hx1 | hx2
              · rcases hesc1 x hx1 with hc | hc
                · exact Or.inl hc
                · exact Or.inr (fun hxs => hc (List.mem_append_left _ hxs))
              · have hxe : x = t.id := by simpa using hx2
                exact Or.inr (hxe ▸ h2)

/-- Soundness of the outer loop of `check_deps_graph`. -/
theorem checkDgGo_sound (d : List (String × Task)) (ids : List String)
    (hid : ∀ k v, alookup d k = some v → v.id = k)
    (hcl : ∀ k v, alookup d k = some v →
      (∀ w ∈ v.deps.after, w ∈ ids) ∧ v.id ∈ ids)
    (hlook : ∀ k, k ∈ ids → ∃ v, alookup d k = some v)
    (fuel : Nat) (hfuel : ids.length + 1 ≤ fuel) :
    ∀ (L : List Task) (safe : List String),
      (∀ t ∈ L, alookup d t.id = some t) → SafeInv d safe →
      (∀ s ∈ safe, s ∈ ids) →
      LoopOut d ids safe L (checkDgGo d fuel L safe) := by
  intro L
  induction L with
  | nil =>
    intro safe hLd hS hsids
    rw [show checkDgGo d fuel [] safe = some (Except.ok safe) from rfl,
      loopOut_ok_eq]
    exact ⟨⟨[], (List.append_nil safe).symm⟩, hS, hsids,
      fun t ht => absurd ht (List.not_mem_nil t)⟩
  | cons t rest ih =>
    intro safe hLd hS hsids
    have hstep : checkDgGo d fuel (t :: rest) safe =
        match dfsVisit d fuel t safe [] with
        | none => none
        | some (Except.error e) => some (Except.error e)
        | some (Except.ok safe1) => checkDgGo d fuel rest safe1 := rfl
    rw [hstep]
    have hv := dfsVisit_sound d ids hid hcl hlook fuel t safe []
      (hLd t (List.mem_cons_self _ _)) hS hsids List.nodup_nil
      (fun s hs => absurd hs (List.not_mem_nil s)) List.chain'_nil
      (fun x hx => by simp at hx)
      (by simpa using hfuel)
    cases hres : dfsVisit d fuel t safe [] with
    | none =>
      rw [hres, visitOut_none_eq] at hv
      exact hv.elim
    | some r =>
      cases r with
      | error e =>
        rw [hres, visitOut_error_eq] at hv
        show LoopOut d ids safe (t :: rest) (some (Except.error e))
        rw [loopOut_error_eq]
        exact hv
      | ok safe1 =>
        rw [hres, visitOut_ok_eq] at hv
        obtain ⟨⟨l1, hgrow1⟩, hS1, hsids1, hmem1, _⟩ := hv
        show LoopOut d ids safe (t :: rest) (checkDgGo d fuel rest safe1)
        have hrec := ih safe1
          (fun t2 ht2 => hLd t2 (List.mem_cons_of_mem _ ht2)) hS1 hsids1
        cases hres2 : checkDgGo d fuel rest safe1 with
        | none =>
          rw [hres2, loopOut_none_eq] at hrec
          exact hrec.elim
        | some r2 =>
          cases r2 with
          | error e =>
            rw [hres2, loopOut_error_eq] at hrec
            show LoopOut d ids safe (t :: rest) (some (Except.error e))
            rw [loopOut_error_eq]
            exact hrec
          | ok safeF =>
            rw [hres2, loopOut_ok_eq] at hrec
            obtain ⟨⟨l2, hgrow2⟩, hSF, hsidsF, hmemF⟩ := hrec
            show LoopOut d ids safe (t :: rest) (some (Except.ok safeF))
            rw [loopOut_ok_eq]
            refine ⟨⟨l1 ++ l2, by rw [hgrow2, hgrow1, List.append_assoc]⟩,
              hSF, hsidsF, ?_⟩
            intro t2 ht2
            rcases List.mem_cons.1 ht2 with rfl | ht3
            · rw [hgrow2]
              exact List.mem_append_left _ hmem1
            · exact hmemF t2 ht3

/-- The postcondition of the full `check_deps_graph` run on a
reference-closed AST with duplicate-free ids. -/
theorem checkDepsGraphRun_sound (ast : TaskAST)
    (hrefs : undefinedRefsOf ast = [])
    (hnodup : (getIds ast.tasks).Nodup) :
    LoopOut (getTasksInDict (transformedTasks (injectImplicitDeps ast)))
      (getIds ast.tasks) [] (transformedTasks (injectImplicitDeps ast))
      (checkDepsGraphRun (injectImplicitDeps ast)) := by
  have hids_eq := getIds_transformed_inject ast
  have hgood := allGood_transformed_inject ast hrefs
  have hnodup2 : (getIds (transformedTasks (injectImplicitDeps ast))).Nodup := by
    rw [hids_eq]
    exact hnodup
  have hid : ∀ k v,
      alookup (getTasksInDict (transformedTasks (injectImplicitDeps ast))) k =
        some v → v.id = k :=
    fun k v h => (alookup_task_mem h).2
  have hcl : ∀ k v,
      alookup (getTasksInDict (transformedTasks (injectImplicitDeps ast))) k =
        some v →
      (∀ w ∈ v.deps.after, w ∈ getIds ast.tasks) ∧
        v.id ∈ getIds ast.tasks := by
    intro k v h
    have hm := (alookup_task_mem h).1
    exact ⟨((hgood v hm).1).2.1, (hgood v hm).2⟩
  have hlook : ∀ k, k ∈ getIds ast.tasks → ∃ v,
      alookup (getTasksInDict (transformedTasks (injectImplicitDeps ast))) k =
        some v := by
    intro k hk
    exact alookup_some_of_mem_ids (hids_eq ▸ hk)
  have hfuel : (getIds ast.tasks).length + 1 ≤
      (getTasksInDict (transformedTasks (injectImplicitDeps ast))).length.succ := by
    rw [getTasksInDict_length_of_nodup hnodup2]
    have h1 : (getIds (transformedTasks (injectImplicitDeps ast))).length =
        (transformedTasks (injectImplicitDeps ast)).length :=
      List.length_map _ _
    rw [hids_eq] at h1
    omega
  have hLd : ∀ t ∈ transformedTasks (injectImplicitDeps ast),
      alookup (getTasksInDict (transformedTasks (injectImplicitDeps ast)))
        t.id = some t :=
    fun t ht => alookup_self_of_nodup hnodup2 ht
  exact checkDgGo_sound
    (getTasksInDict (transformedTasks (injectImplicitDeps ast)))
    (getIds ast.tasks) hid hcl hlook
    (getTasksInDict (transformedTasks (injectImplicitDeps ast))).length.succ
    hfuel (transformedTasks (injectImplicitDeps ast)) [] hLd
    (fun u hu => absurd hu (List.not_mem_nil u))
    (fun s hs => absurd hs (List.not_mem_nil s))

/-- A successful cycle check certifies acyclicity of the walked graph. -/
theorem run_ok_not_cyclic (ast : TaskAST)
    (hrefs : undefinedRefsOf ast = [])
    (hnodup : (getIds ast.tasks).Nodup) :
    ∀ s, checkDepsGraphRun (injectImplicitDeps ast) = some (Except.ok s) →
      ¬ Cyclic (getTasksInDict (transformedTasks (injectImplicitDeps ast))) := by
  intro s hrun hcyc
  have h := checkDepsGraphRun_sound ast hrefs hnodup
  rw [hrun, loopOut_ok_eq] at h
  obtain ⟨_, hSF, _, hall⟩ := h
  obtain ⟨u, htg⟩ := hcyc
  obtain ⟨c, hac, _⟩ := Relation.TransGen.head'_iff.1 htg
  obtain ⟨tu, halk, _⟩ := hac
  have hmem := (alookup_task_mem halk).1
  have hidu := (alookup_task_mem halk).2
  have hu : u ∈ s := hidu ▸ hall tu hmem
  obtain ⟨_, hlt⟩ := transGen_mem_rank hSF u u htg hu
  exact Nat.lt_irrefl _ hlt

/-- A failing cycle check reports a genuine cycle path. -/
theorem run_error_cyclePath (ast : TaskAST)
    (hrefs : undefinedRefsOf ast = [])
    (hnodup : (getIds ast.tasks).Nodup) :
    ∀ e, checkDepsGraphRun (injectImplicitDeps ast) = some (Except.error e) →
      CyclePath (getTasksInDict (transformedTasks (injectImplicitDeps ast))) e := by
  intro e hrun
  have h := checkDepsGraphRun_sound ast hrefs hnodup
  rw [hrun, loopOut_error_eq] at h
  exact h

/-! ## Claim theorems -/

/-- Claim C1 (code bug, evaluated at the failing input).  On `c1ast` —
validly constructed (`astCheck` succeeds) — `ProcessedAST.from_raw_ast` keeps
the `done` step `a` among its nodes; the modeled (`todo`) node `b` still
lists the dropped id `a` in its `deps`; and the dependency-enforcement loop
of `BasicModel.from_processed_ast` consequently fails (`interval_vars["a"]`
raises `KeyError`), instead of the done id having been removed from the
survivors' deps as the claim states. -/
theorem c1_done_dep_eval :
    astCheck c1ast = some (Except.ok c1ast)
    ∧ (fromRawAst c1ast).map (fun p => p.nodes.map Prod.fst) = some ["a", "b"]
    ∧ (fromRawAst c1ast).map (fun p =>
        (alookup p.nodes "a").map AtomicTask.status) = some (some Status.done)
    ∧ (fromRawAst c1ast).map (fun p => (getNodes p).map Prod.fst) = some ["b"]
    ∧ (fromRawAst c1ast).map (fun p => (getNodes p).map (fun kv => kv.2.deps)) =
        some [["a"]]
    ∧ (fromRawAst c1ast).map (fun p => addPrecedenceConstraints (getNodes p)) =
        some none := by
  decide

/-- Claim C2 (code bug, evaluated at the failing input).  For an empty
background set the sweep-merge of `ProcessedAST.get_background_blocks`
returns the one-element list `[None]` (the unconditional final
`final.append(prev_block)`), not the empty list of intervals the claim
describes; `BasicModel.from_processed_ast` then crashes on
`block.duration`. -/
theorem c2_empty_bg_eval :
    getBackgroundBlocksOf [] = [none]
    ∧ getBackgroundBlocksOf [] ≠ ([] : List (Option Block)) := by
  exact ⟨rfl, by decide⟩

/-- Claim C4, amended (the part that survives the counterexample).
`propogate_properties` is idempotent on ASTs in which every goal has
priority 1 and no task carries a deadline: there each pass is the identity,
so a second application changes nothing.  (In general idempotence fails:
see the counterexample — priorities are multiplied again.) -/
theorem c4_idempotent_on_trivial (ast : TaskAST)
    (h1 : ∀ t ∈ ast.tasks, t.isGoal = true → t.priority = 1)
    (h2 : ∀ t ∈ ast.tasks, t.deadline = none) :
    ast.propogateProperties.bind TaskAST.propogateProperties =
      ast.propogateProperties := by
  cases hp : ast.propogateProperties with
  | none => rfl
  | some x =>
    have hxa : x = ast := propogateProperties_id ast h1 h2 x hp
    subst hxa
    show x.propogateProperties = some x
    exact hp

/-- Witness for `c4_idempotent_on_trivial` at a concrete one-step AST. -/
theorem c4_idempotent_on_trivial_witness :
    c4trivialAst.propogateProperties.bind TaskAST.propogateProperties =
      c4trivialAst.propogateProperties
    ∧ c4trivialAst.propogateProperties = some c4trivialAst :=
  ⟨c4_idempotent_on_trivial c4trivialAst (by decide) (by decide), by decide⟩

/-- Claim C9 (confirmed).  `normalize_dependencies` and
`propogate_properties` are copy-producing: in the object-heap embedding,
after running either transform every object the receiver AST references is
unchanged (both start with `deepcopy` and write only through the freshly
allocated copies), so the receiver denotes the same AST value afterwards and
can be re-propagated later.  This holds even on runs where propagation
crashes mid-loop. -/
theorem c9_transforms_preserve_original (h : Heap) (refs : List Nat)
    (cfg : CascadeConfig) (hwf : ∀ r ∈ refs, r < h.objs.length) :
    (∀ r ∈ refs, heapGet (normalizeS h refs).1 r = heapGet h r)
    ∧ (∀ r ∈ refs, heapGet (propogateS h refs cfg).1 r = heapGet h r)
    ∧ extractAST (normalizeS h refs).1 refs cfg = extractAST h refs cfg
    ∧ extractAST (propogateS h refs cfg).1 refs cfg = extractAST h refs cfg := by
  have hn : (normalizeS h refs).1.objs.take h.objs.length =
      h.objs.take h.objs.length := by
    rw [normalizeS_take, List.take_length]
  have hp : (propogateS h refs cfg).1.objs.take h.objs.length =
      h.objs.take h.objs.length := by
    rw [propogateS_take, List.take_length]
  have g1 : ∀ r ∈ refs, heapGet (normalizeS h refs).1 r = heapGet h r :=
    fun r hr => heapGet_of_take_eq hn (hwf r hr)
  have g2 : ∀ r ∈ refs, heapGet (propogateS h refs cfg).1 r = heapGet h r :=
    fun r hr => heapGet_of_take_eq hp (hwf r hr)
  refine ⟨g1, g2, ?_, ?_⟩
  · exact congrArg (fun l => TaskAST.mk cfg l) (List.map_congr_left g1)
  · exact congrArg (fun l => TaskAST.mk cfg l) (List.map_congr_left g2)

/-- Witness for `c9_transforms_preserve_original`: a one-object heap. -/
theorem c9_transforms_preserve_original_witness :
    extractAST (normalizeS ⟨[mkStep "W" "w" .todo [] none 1]⟩ [0]).1 [0] cfg0 =
      extractAST ⟨[mkStep "W" "w" .todo [] none 1]⟩ [0] cfg0
    ∧ extractAST (propogateS ⟨[mkStep "W" "w" .todo [] none 1]⟩ [0] cfg0).1
        [0] cfg0 =
      extractAST ⟨[mkStep "W" "w" .todo [] none 1]⟩ [0] cfg0 := by
  have h := c9_transforms_preserve_original ⟨[mkStep "W" "w" .todo [] none 1]⟩
    [0] cfg0 (by decide)
  exact ⟨h.2.2.1, h.2.2.2⟩

/-- Claim C10 (confirmed).  TaskAST construction does not enforce id
uniqueness: `dupAst` carries the id `a` twice and validates successfully;
and `get_tasks_in_dict` — through which every pass resolves ids — maps any
id to the task occurring *last* in the list with that id, silently ignoring
earlier ones. -/
theorem c10_duplicate_ids_last_wins :
    (∀ (ts : List Task) (k : String),
        alookup (getTasksInDict ts) k =
          (ts.filter (fun t => t.id = k)).getLast?)
    ∧ dupAst.tasks.map Task.id = ["a", "b", "a"]
    ∧ astCheck dupAst = some (Except.ok dupAst)
    ∧ alookup (getTasksInDict dupAst.tasks) "a" =
        some (mkStep "A2" "a" .todo ["b"] none 1) := by
  exact ⟨alookup_getTasksInDict, by decide, by decide, by decide⟩

/-- Claim C3, amended (the part that survives the counterexample).  On an
AST whose references validate (`check_refs` runs first) and whose deadlines
are naive (what Pydantic's `NaiveDatetime` guarantees at construction),
`check_deadlines` completes without crashing and raises exactly when some
task has a *direct* predecessor — an id in its `deps.after` after
before-inversion and goal→subtask conversion — with a strictly later
deadline; the raised error reports a nonempty set of offending ids, each of
which is such a direct predecessor of the reported task. -/
theorem c3_direct_deadline_check (ast : TaskAST)
    (hrefs : undefinedRefsOf ast = [])
    (hnaive : allNaiveDeadlines ast = true) :
    (∃ r, checkDeadlinesRun ast = some r)
    ∧ (checkDeadlinesRun ast = some none ↔ ¬ DirectConflict ast)
    ∧ (∀ nm ids, checkDeadlinesRun ast = some (some (nm, ids)) →
        ids ≠ [] ∧ ∃ t ∈ transformedTasks ast, t.name = nm ∧
          ∀ i ∈ ids, depConflict (getTasksInDict ast.tasks) t i) := by
  obtain ⟨h1, h2, h3⟩ := checkDdlGo_spec (getTasksInDict ast.tasks)
    (transformedTasks ast) (taskConflicts_package ast hrefs hnaive)
  refine ⟨h1, ?_, h3⟩
  rw [show checkDeadlinesRun ast =
      checkDdlGo (getTasksInDict ast.tasks) (transformedTasks ast) from rfl, h2]
  unfold DirectConflict
  simp only [not_exists, not_and]

/-- Witness for `c3_direct_deadline_check` at the concrete AST `c3ast`: its
deadline check passes, hence no direct conflict exists (even though a
transitive one does — see the counterexample). -/
theorem c3_direct_deadline_check_witness :
    ¬ DirectConflict c3ast ∧ checkDeadlinesRun c3ast = some none := by
  have h := c3_direct_deadline_check c3ast (by decide) (by decide)
  exact ⟨h.2.1.1 (by decide), by decide⟩

/-- Claim C3, counterexample to the claim as stated.  `c3ast` constructs
successfully, although task `c` (deadline 1000) has the transitive
predecessor `a` (via the deadline-less `b`) whose deadline 3000 is strictly
later: `check_deadlines` only inspects *direct* `deps.after` entries, so the
claimed failure does not occur. -/
theorem c3_transitive_counterexample :
    astCheck c3ast = some (Except.ok c3ast)
    ∧ (alookup (getTasksInDict c3ast.tasks) "a").bind Task.deadline =
        some ⟨3000, none⟩
    ∧ (alookup (getTasksInDict c3ast.tasks) "c").bind Task.deadline =
        some ⟨1000, none⟩
    ∧ dtGt (⟨3000, none⟩ : DateTime) ⟨1000, none⟩ = some true
    ∧ Relation.TransGen (GEdge (getTasksInDict (transformedTasks c3ast))) "c" "a" := by
  refine ⟨by decide, by decide, by decide, by decide, ?_⟩
  have e1 : GEdge (getTasksInDict (transformedTasks c3ast)) "c" "b" :=
    ⟨mkStep "C" "c" .todo ["b"] (some ⟨1000, none⟩) 1, by decide, by decide⟩
  have e2 : GEdge (getTasksInDict (transformedTasks c3ast)) "b" "a" :=
    ⟨mkStep "B" "b" .todo ["a"] none 1, by decide, by decide⟩
  exact Relation.TransGen.head e1 (Relation.TransGen.single e2)

/-- Claim C5, counterexample to the claim as stated.  `dupAst` (in which the
id `a` occurs twice) constructs successfully, yet its dependency graph — in
the id-collapsed form every check resolves ids through — has the cycle
`a → b → a`: the DFS marks `a` safe after exploring the *first* object with
that id and never follows the last object's edges, while `get_tasks_in_dict`
maps `a` to the last object. -/
theorem c5_duplicate_id_counterexample :
    astCheck dupAst = some (Except.ok dupAst)
    ∧ ¬ (dupAst.tasks.map Task.id).Nodup
    ∧ Cyclic (getTasksInDict (transformedTasks dupAst)) := by
  refine ⟨by decide, by decide, "a", ?_⟩
  have e1 : GEdge (getTasksInDict (transformedTasks dupAst)) "a" "b" :=
    ⟨mkStep "A2" "a" .todo ["b"] none 1, by decide, by decide⟩
  have e2 : GEdge (getTasksInDict (transformedTasks dupAst)) "b" "a" :=
    ⟨mkStep "B" "b" .todo ["a"] none 1, by decide, by decide⟩
  exact Relation.TransGen.head e1 (Relation.TransGen.single e2)

/-- Claim C5, amended.  On an AST whose references validated and whose task
ids are pairwise distinct: the cycle check cannot crash; any error it
reports is a chain of edges of the walked graph (`before` inverted, goals
depending on their subtasks, implicit-order edges injected beforehand)
whose last node closes a cycle; it reports an error exactly when that graph
has a cycle; when deadline validation also passed, construction raises a
dependency-cycle error exactly when the graph has a cycle; and every
successfully constructed `TaskAST` has an acyclic graph.  (Without the
duplicate-free hypothesis the claim fails, see the counterexample.) -/
theorem c5_acyclic_iff (ast : TaskAST)
    (hrefs : undefinedRefsOf ast = [])
    (hnodup : (getIds ast.tasks).Nodup) :
    checkDepsGraphRun (injectImplicitDeps ast) ≠ none
    ∧ (∀ e, checkDepsGraphRun (injectImplicitDeps ast) =
        some (Except.error e) →
        List.Chain'
          (GEdge (getTasksInDict (transformedTasks (injectImplicitDeps ast))))
          e ∧ ∃ l1 x l2, e = l1 ++ x :: (l2 ++ [x]))
    ∧ ((∃ e, checkDepsGraphRun (injectImplicitDeps ast) =
          some (Except.error e)) ↔
        Cyclic (getTasksInDict (transformedTasks (injectImplicitDeps ast))))
    ∧ (checkDeadlinesRun ast = some none →
        ((∃ p, astCheck ast = some (Except.error (CheckError.depCycle p))) ↔
          Cyclic (getTasksInDict (transformedTasks (injectImplicitDeps ast)))))
    ∧ (∀ ast2, astCheck ast = some (Except.ok ast2) →
        ¬ Cyclic (getTasksInDict (transformedTasks ast2))) := by
  have hrefs2 : ¬ (undefinedRefsOf ast ≠ []) := fun h => h hrefs
  refine ⟨?_, ?_, ?_, ?_, ?_⟩
  · intro hrun
    have h := checkDepsGraphRun_sound ast hrefs hnodup
    rw [hrun, loopOut_none_eq] at h
    exact h
  · intro e he
    exact run_error_cyclePath ast hrefs hnodup e he
  · constructor
    · rintro ⟨e, he⟩
      exact cyclePath_cyclic (run_error_cyclePath ast hrefs hnodup e he)
    · intro hcyc
      cases hrun : checkDepsGraphRun (injectImplicitDeps ast) with
      | none =>
        have h := checkDepsGraphRun_sound ast hrefs hnodup
        rw [hrun, loopOut_none_eq] at h
        exact h.elim
      | some r =>
        cases r with
        | error e => exact ⟨e, rfl⟩
        | ok s => exact absurd hcyc (run_ok_not_cyclic ast hrefs hnodup s hrun)
  · intro hddl
    cases hrun : checkDepsGraphRun (injectImplicitDeps ast) with
    | none =>
      have h := checkDepsGraphRun_sound ast hrefs hnodup
      rw [hrun, loopOut_none_eq] at h
      exact h.elim
    | some r =>
      cases r with
      | error e =>
        have hast : astCheck ast =
            some (Except.error (CheckError.depCycle e)) := by
          unfold astCheck
          rw [if_neg hrefs2, hddl, hrun]
        constructor
        · intro _
          exact cyclePath_cyclic (run_error_cyclePath ast hrefs hnodup e hrun)
        · intro _
          exact ⟨e, hast⟩
      | ok s =>
        have hast : astCheck ast = some (Except.ok (injectImplicitDeps ast)) := by
          unfold astCheck
          rw [if_neg hrefs2, hddl, hrun]
        constructor
        · rintro ⟨p, hp⟩
          rw [hast] at hp
          simp at hp
        · intro hcyc
          exact absurd hcyc (run_ok_not_cyclic ast hrefs hnodup s hrun)
  · intro ast2 hast hcyc
    cases hddl2 : checkDeadlinesRun ast with
    | none =>
      have hnone : astCheck ast = none := by
        unfold astCheck
        rw [if_neg hrefs2, hddl2]
      rw [hnone] at hast
      exact Option.noConfusion hast
    | some o =>
      cases o with
      | some nc =>
        have herr : astCheck ast =
            some (Except.error (CheckError.ddlConflict nc.1 nc.2)) := by
          unfold astCheck
          rw [if_neg hrefs2, hddl2]
        rw [herr] at hast
        simp at hast
      | none =>
        cases hrun : checkDepsGraphRun (injectImplicitDeps ast) with
        | none =>
          have h := checkDepsGraphRun_sound ast hrefs hnodup
          rw [hrun, loopOut_none_eq] at h
          exact h.elim
        | some r =>
          cases r with
          | error e =>
            have herr : astCheck ast =
                some (Except.error (CheckError.depCycle e)) := by
              unfold astCheck
              rw [if_neg hrefs2, hddl2, hrun]
            rw [herr] at hast
            simp at hast
          | ok s =>
            have hok : astCheck ast =
                some (Except.ok (injectImplicitDeps ast)) := by
              unfold astCheck
              rw [if_neg hrefs2, hddl2, hrun]
            rw [hok] at hast
            have h2 : injectImplicitDeps ast = ast2 :=
              Except.ok.inj (Option.some.inj hast)
            rw [← h2] at hcyc
            exact run_ok_not_cyclic ast hrefs hnodup s hrun hcyc

/-- Witness for `c5_acyclic_iff`: the three-task chain `c3ast` has defined
references and duplicate-free ids, and its cycle check completes. -/
theorem c5_acyclic_iff_witness :
    undefinedRefsOf c3ast = [] ∧ (getIds c3ast.tasks).Nodup ∧
      checkDepsGraphRun (injectImplicitDeps c3ast) ≠ none :=
  ⟨by decide, by decide, (c5_acyclic_iff c3ast (by decide) (by decide)).1⟩

/-- Claim C4, counterexample.  `c4ast` is a valid TaskAST, yet applying
`propogate_properties` to the result of `c4ast.propogate_properties()` does
not yield the same AST: the step's priority is 2 after one application and 4
after two (multiplication applied again). -/
theorem c4_idempotence_counterexample :
    astCheck c4ast = some (Except.ok c4ast)
    ∧ c4ast.propogateProperties.map (fun a => a.tasks.map Task.priority) =
        some [2, 2]
    ∧ (c4ast.propogateProperties.bind TaskAST.propogateProperties).map
        (fun a => a.tasks.map Task.priority) = some [4, 2]
    ∧ c4ast.propogateProperties.bind TaskAST.propogateProperties ≠
        c4ast.propogateProperties := by
  decide

/-- Claim C8, amended.  `BasicModel.from_processed_ast` replaces the given
schedule start by the smallest slot boundary, measured from local midnight of
that day, that is greater than or equal to it (snapping up, leaving an exact
boundary unchanged); and it raises the window error exactly when the schedule
end is *strictly before* the snapped start (an end equal to the snapped start
is accepted, yielding a zero-slot window). -/
theorem c8_snap_and_window (s e : Int) :
    s ≤ snapStart s
    ∧ (snapStart s - startOfDay s) % DURATION_UNIT = 0
    ∧ (∀ b : Int, s ≤ b → (b - startOfDay s) % DURATION_UNIT = 0 →
        snapStart s ≤ b)
    ∧ ((s - startOfDay s) % DURATION_UNIT = 0 → snapStart s = s)
    ∧ (windowErrorRaised s e = true ↔ e < snapStart s) := by
  unfold windowErrorRaised getTotalSlots datetimeToSlot snapStart startOfDay
    DURATION_UNIT MICROS_PER_DAY
  refine ⟨by omega, by omega, fun b hb hmod => by omega, fun hmod => by omega, ?_⟩
  simp only [decide_eq_true_eq]
  omega

/-- Witness for `c8_snap_and_window` at concrete inputs: `299 μs` snaps up to
the first slot boundary `300000000 μs`, and an exact boundary stays fixed. -/
theorem c8_snap_and_window_witness :
    snapStart 299 ≤ 300000000 ∧ snapStart 0 = 0 :=
  ⟨(c8_snap_and_window 299 0).2.2.1 300000000 (by decide) (by decide),
   (c8_snap_and_window 0 0).2.2.2.1 (by decide)⟩

/-- Claim C8, counterexample to the claim as stated: with schedule start `0`
(already a slot boundary, so `snapStart 0 = 0`) and schedule end `0`, the end
is *not* strictly after the snapped start, yet `BasicModel.from_processed_ast`
does not raise the window error (its guard is `< 0`, not `≤ 0`). -/
theorem c8_equal_window_counterexample :
    snapStart 0 = 0 ∧ ¬ (snapStart 0 < 0) ∧ windowErrorRaised 0 0 = false := by
  refine ⟨by decide, by decide, by decide⟩

/-- Claim C6 (confirmed).  In every assignment satisfying the constraints posed
for a task with deadline slot `k`, exactly one of the three indicator bits is
true, the true indicator matches the position of `[start, end)` relative to
`k`, and `avail` equals `len` when `end ≤ k`, equals `k - start` when
`start ≤ k < end`, equals `0` when `k < start` — equivalently
`avail = max 0 (min len (k - start))`. -/
theorem c6_deadline_indicators (T k dur : Int) (a : DdlAssign)
    (h : DdlConstraints T k dur a) :
    b2i a.beforeDdl + b2i a.clipped + b2i a.afterDdl = 1
    ∧ (a.beforeDdl = true ↔ a.endv ≤ k)
    ∧ (a.clipped = true ↔ (a.start ≤ k ∧ k < a.endv))
    ∧ (a.afterDdl = true ↔ k < a.start)
    ∧ (a.endv ≤ k → a.avail = a.len)
    ∧ ((a.start ≤ k ∧ k < a.endv) → a.avail = k - a.start)
    ∧ (k < a.start → a.avail = 0)
    ∧ a.avail = max 0 (min a.len (k - a.start)) := by
  obtain ⟨hs, he, hl, hse, ha, hone, hb1, ha1, hc1, hc2, hb2, hc3, ha2⟩ := h
  cases hb : a.beforeDdl <;> cases hc : a.clipped <;> cases haf : a.afterDdl <;>
    simp [hb, hc, haf, b2i] at hone hb1 ha1 hc1 hc2 hb2 hc3 ha2 ⊢ <;>
    omega

/-- Witness for `c6_deadline_indicators`: a concrete feasible assignment in the
straddling case (`T = 10`, `k = 2`, `dur = 3`, interval `[0, 3)`). -/
theorem c6_deadline_indicators_witness :
    DdlConstraints 10 2 3 ⟨0, 3, 3, 2, false, true, false⟩
    ∧ (⟨0, 3, 3, 2, false, true, false⟩ : DdlAssign).avail =
        max 0 (min 3 (2 - 0)) := by
  refine ⟨by decide, ?_⟩
  exact (c6_deadline_indicators 10 2 3 _ (by decide)).2.2.2.2.2.2.2

/-- Claim C7 (confirmed).  With `uStar` the floor of the stage-1 optimum and
`cufStar` the floor of the stage-2 optimum (the code's
`int(sol.objective_value)` of the respective solves): after the CUF stage is
built every feasible assignment satisfies `sum U_i ≥ uStar`; after the
interval-length stage is built every feasible assignment additionally
satisfies `sum CUF_i ≥ cufStar` while the registered objective is to minimize
`sum len_i`; and all constraints are added to the same model instance — the
final constraint list extends the stage-1 model's constraint list, so every
earlier constraint still binds. -/
theorem c7_lexicographic_floors (m : StagedModel) (uStar cufStar : Int)
    (σ τ : StageAssign)
    (hσ : Feasible (cufFromTotalUtilityModel m uStar) σ)
    (hτ : Feasible (intervalLenFromCufModel (cufFromTotalUtilityModel m uStar)
            cufStar) τ) :
    uStar ≤ sumUtil m.ids σ
    ∧ uStar ≤ sumUtil m.ids τ
    ∧ cufStar ≤ sumCuf m.ids τ
    ∧ (intervalLenFromCufModel (cufFromTotalUtilityModel m uStar)
        cufStar).objective = some .minimizeLen
    ∧ (∃ rest, (intervalLenFromCufModel (cufFromTotalUtilityModel m uStar)
        cufStar).constraints = m.constraints ++ rest)
    ∧ Feasible m τ := by
  have hids : (cufFromTotalUtilityModel m uStar).ids = m.ids := rfl
  have hcs : (cufFromTotalUtilityModel m uStar).constraints =
      m.constraints ++ [fun σ => uStar ≤ sumUtil m.ids σ] := rfl
  have hcs2 : (intervalLenFromCufModel (cufFromTotalUtilityModel m uStar)
      cufStar).constraints =
      (m.constraints ++ [fun σ => uStar ≤ sumUtil m.ids σ])
        ++ [fun σ => cufStar ≤ sumCuf m.ids σ] := rfl
  have hm1 : (fun σ => uStar ≤ sumUtil m.ids σ) ∈
      (cufFromTotalUtilityModel m uStar).constraints := by
    rw [hcs]
    exact List.mem_append_right _ (List.mem_singleton.2 rfl)
  have hm2 : (fun σ => uStar ≤ sumUtil m.ids σ) ∈
      (intervalLenFromCufModel (cufFromTotalUtilityModel m uStar)
        cufStar).constraints := by
    rw [hcs2]
    exact List.mem_append_left _ (List.mem_append_right _ (List.mem_singleton.2 rfl))
  have hm3 : (fun σ => cufStar ≤ sumCuf m.ids σ) ∈
      (intervalLenFromCufModel (cufFromTotalUtilityModel m uStar)
        cufStar).constraints := by
    rw [hcs2]
    exact List.mem_append_right _ (List.mem_singleton.2 rfl)
  refine ⟨hσ _ hm1, hτ _ hm2, hτ _ hm3, rfl, ⟨_, by rw [hcs2, List.append_assoc]⟩, ?_⟩
  intro c hc
  refine hτ _ ?_
  rw [hcs2]
  exact List.mem_append_left _ (List.mem_append_left _ hc)

/-- Witness for `c7_lexicographic_floors`: one task `"a"`, an initially empty
model, floors `uStar = 3`, `cufStar = 5`, and the assignment
`U = 4, CUF = 6, len = 2`. -/
theorem c7_lexicographic_floors_witness :
    (3 : Int) ≤ sumUtil ["a"] ⟨fun _ => 4, fun _ => 6, fun _ => 2⟩
    ∧ (5 : Int) ≤ sumCuf ["a"] ⟨fun _ => 4, fun _ => 6, fun _ => 2⟩ := by
  have h := c7_lexicographic_floors ⟨["a"], [], none⟩ 3 5
    ⟨fun _ => 4, fun _ => 6, fun _ => 2⟩ ⟨fun _ => 4, fun _ => 6, fun _ => 2⟩
    ?_ ?_
  · exact ⟨h.1, h.2.2.1⟩
  · intro c hc
    simp only [cufFromTotalUtilityModel, tuSetObjectiveConstraint,
      List.nil_append, List.mem_singleton] at hc
    subst hc
    simp [sumUtil]
  · intro c hc
    simp only [intervalLenFromCufModel, cufSetObjectiveConstraint,
      cufFromTotalUtilityModel, tuSetObjectiveConstraint, List.nil_append,
      List.mem_append, List.mem_singleton] at hc
    rcases hc with hc | hc <;> subst hc
    · simp [sumUtil]
    · simp [sumCuf]

end Cascade
